import Mathlib

/-!  Verification of the Baseball-Reference pitcher scraper (`br-exd-pitch.py`).

Python strings are modelled as lists of characters (`Str := List Char`);
the text functions the scraper uses (`str.lower`, `str.strip`, `str.replace`,
`re.sub`, the `in` substring test, ...) are embedded as executable functions
on `Str`.  Python's Unicode-aware `\s` / `str.strip` whitespace class is
modelled by `isPySpace`; `str.lower` is modelled on its ASCII behaviour
(`pyLowerChar`), which is the behaviour exercised by every label and key the
scraper manipulates.  HTML documents are modelled at the interface the
scraper reads them through (BeautifulSoup calls): a page is a structure of
already-extracted node texts and attributes.  -/

/-- Python strings, modelled as lists of characters. -/
abbrev Str := List Char

/-- Build a `Str` from a Lean string literal. -/
def str (s : String) : Str := s.data

/-- Python's whitespace class (matched by `\s` and stripped by `str.strip`). -/
def isPySpace (c : Char) : Bool :=
  let n := c.toNat
  n == 32 || n == 9 || n == 10 || n == 13 || n == 11 || n == 12 ||
  n == 28 || n == 29 || n == 30 || n == 31 || n == 0x85 || n == 0xa0 ||
  n == 0x1680 || (0x2000 ≤ n && n ≤ 0x200a) || n == 0x2028 || n == 0x2029 ||
  n == 0x202f || n == 0x205f || n == 0x3000

/-- ASCII behaviour of Python's `str.lower` on one character. -/
def pyLowerChar (c : Char) : Char :=
  if 65 ≤ c.toNat ∧ c.toNat ≤ 90 then Char.ofNat (c.toNat + 32) else c

/-- Python's `str.lower`. -/
def pyLower (s : Str) : Str := s.map pyLowerChar

/-- Python's `str.strip()`: drop leading and trailing whitespace. -/
def stripPy (s : Str) : Str :=
  ((s.dropWhile isPySpace).reverse.dropWhile isPySpace).reverse

/-- Python's `s.replace(",", "")`. -/
def removeCommas (s : Str) : Str := s.filter (fun c => c != ',')

/-- `s.replace("\xa0", " ")` from `nlabel`. -/
def replaceNbsp (s : Str) : Str := s.map (fun c => if c = '\xa0' then ' ' else c)

/-- The dot-removal step of `nlabel` (a `re.sub` whose class holds the dot
and the zero-width space U+200B): delete every such character. -/
def removeDotZw (s : Str) : Str := s.filter (fun c => c != '.' && c != '\u200b')

/-- `re.sub(r'\s+', ' ', s)` from `nlabel`: replace every maximal whitespace
run by a single space (the space is emitted at the end of the run). -/
def collapseWs : Str → Str
  | [] => []
  | c :: rest =>
    if isPySpace c then
      match rest with
      | [] => [' ']
      | c2 :: _ => if isPySpace c2 then collapseWs rest else ' ' :: collapseWs rest
    else c :: collapseWs rest

/-- `nlabel` from the source: tolerant normalization of a label string
(non-breaking spaces to spaces, dots and zero-width spaces removed,
whitespace collapsed, trimmed, lower-cased). -/
def nlabel (s : Str) : Str :=
  pyLower (stripPy (collapseWs (removeDotZw (replaceNbsp s))))

/-- `needle` occurs at the start of `hay` (helper for the substring test). -/
def hasPre : Str → Str → Bool
  | [], _ => true
  | _ :: _, [] => false
  | a :: as, b :: bs => a == b && hasPre as bs

/-- Python's `needle in hay` substring test. -/
def containsSub (needle : Str) : Str → Bool
  | [] => hasPre needle []
  | c :: t => hasPre needle (c :: t) || containsSub needle t

/-- The footer-row acceptance test of `find_pitching_162_row`: the
normalized label must contain both `"162"` and `"avg"`. -/
def matches162 (rawLabel : Str) : Bool :=
  containsSub (str "162") (nlabel rawLabel) && containsSub (str "avg") (nlabel rawLabel)

example : nlabel (str "  162 Game\xa0Avg. ") = str "162 game avg" := by decide
example : matches162 (str "162 Game Avg") = true := by decide
example : matches162 (str "162-Game Avg.") = true := by decide
example : matches162 (str "Per 162 Game Average") = false := by decide
example : matches162 (str "Career Totals") = false := by decide
example : matches162 (str "Season Avg") = false := by decide

/-! ## Python dicts with insertion order -/

/-- A Python `dict[str, str]` together with its insertion order. -/
abbrev OMap := List (Str × Str)

/-- `d.get(k)` / `k in d`: first entry wins (entries built by `dUpd` have
unique keys). -/
def dGet (d : OMap) (k : Str) : Option Str :=
  (d.find? (fun p => p.1 == k)).map (fun p => p.2)

/-- `d[k] = v`: overwrite an existing key in place, else append. -/
def dUpd (d : OMap) (k v : Str) : OMap :=
  if d.any (fun p => p.1 == k) then
    d.map (fun p => if p.1 == k then (k, v) else p)
  else d ++ [(k, v)]

/-- `d.update(us)`. -/
def dUpdAll (d : OMap) (us : OMap) : OMap :=
  us.foldl (fun a p => dUpd a p.1 p.2) d

/-! ## Constants from the source -/

/-- Desired output order of statistic columns (`PREFERRED`). -/
def PREFERRED : List Str :=
  [str "W", str "L", str "W-L%", str "ERA",
   str "G", str "GS", str "GF", str "CG", str "SHO", str "SV", str "IP",
   str "H", str "R", str "ER", str "HR", str "BB", str "IBB", str "SO",
   str "HBP", str "BK", str "WP", str "BF",
   str "ERA+", str "FIP", str "WHIP", str "H9", str "HR9", str "BB9",
   str "SO9", str "SO/BB"]

/-- The counting statistics (`COUNTING`), subject to ceiling rounding. -/
def COUNTING : List Str :=
  [str "W", str "L", str "G", str "GS", str "GF", str "CG", str "SHO",
   str "SV", str "H", str "R", str "ER", str "HR", str "BB", str "IBB",
   str "SO", str "HBP", str "BF", str "WP", str "BK"]

/-- Fields exempted from rounding (`SKIP_ROUND`). -/
def SKIP_ROUND : List Str := [str "IP"]

/-- Raw Baseball-Reference keys to friendly names (`KEY_MAP`). -/
def KEY_MAP : List (Str × Str) :=
  [(str "w", str "W"), (str "l", str "L"), (str "wl_perc", str "W-L%"),
   (str "win_loss_perc", str "W-L%"), (str "earned_run_avg", str "ERA"),
   (str "g", str "G"), (str "gs", str "GS"), (str "gf", str "GF"),
   (str "cg", str "CG"), (str "sho", str "SHO"), (str "sv", str "SV"),
   (str "ip", str "IP"), (str "h", str "H"), (str "r", str "R"),
   (str "er", str "ER"), (str "hr", str "HR"), (str "bb", str "BB"),
   (str "ibb", str "IBB"), (str "so", str "SO"), (str "hbp", str "HBP"),
   (str "bk", str "BK"), (str "wp", str "WP"), (str "bf", str "BF"),
   (str "batters_faced", str "BF"), (str "era_plus", str "ERA+"),
   (str "fip", str "FIP"), (str "whip", str "WHIP"),
   (str "hits_per_nine", str "H9"), (str "home_runs_per_nine", str "HR9"),
   (str "bases_on_balls_per_nine", str "BB9"),
   (str "strikeouts_per_nine", str "SO9"),
   (str "strikeouts_per_base_on_balls", str "SO/BB")]

/-- Non-stat header cells dropped during alignment (`STAT_HEADER_DROP`). -/
def STAT_HEADER_DROP : List Str :=
  [str "season", str "year_id", str "age", str "team_id", str "tm",
   str "lg", str "lg_id", str "stint", str "pos", str "pos_summary"]

/-- `KEY_MAP.get(k)`. -/
def kmLookup (k : Str) : Option Str :=
  (KEY_MAP.find? (fun p => p.1 == k)).map (fun p => p.2)

/-- `KEY_MAP.get(k, KEY_MAP.get(k.lower(), k))`: translate a raw key to its
friendly name, defaulting to the raw key itself. -/
def kmGet (k : Str) : Str :=
  (kmLookup k).getD ((kmLookup (pyLower k)).getD k)

/-! ## Tables at the interface the scraper reads them through -/

/-- A table cell (`th`/`td`): its `data-stat` attribute, when the attribute
is present (possibly empty), and its `get_text(strip=True)` text. -/
structure Cell where
  dataStat : Option Str
  text : Str
deriving DecidableEq

/-- A footer row: its `th` label text when a `th` exists, and its `td`
cells in order. -/
structure FRow where
  th : Option Str
  cells : List Cell
deriving DecidableEq

/-- A `table` node: its `id` attribute, its `thead` rows and its `tfoot`
rows, each present only when the corresponding element exists. -/
structure Table where
  id : Option Str
  thead : Option (List (List Cell))
  tfoot : Option (List FRow)
deriving DecidableEq

/-- `s.replace(" ", "_")`. -/
def spacesToUnderscores (s : Str) : Str :=
  s.map (fun c => if c = ' ' then '_' else c)

/-- `s.replace("%", "perc")`. -/
def percToPerc (s : Str) : Str :=
  s.flatMap (fun c => if c = '%' then str "perc" else [c])

/-- `build_header_stat_keys`: from the last `thead` row, the ordered list
of normalized stat keys, skipping empty keys and the non-stat drop set. -/
def build_header_stat_keys (tbl : Table) : List Str :=
  match tbl.thead with
  | none => []
  | some rows =>
    match rows.getLast? with
    | none => []
    | some hdr =>
      hdr.filterMap (fun th =>
        let k0 := pyLower (stripPy (th.dataStat.getD []))
        let k1 := if k0 = [] then pyLower (stripPy th.text) else k0
        let k := percToPerc (spacesToUnderscores k1)
        if k = [] ∨ k ∈ STAT_HEADER_DROP then none else some k)

/-- `(td.get("data-stat") or "").strip().lower().replace(" ", "_")`. -/
def normTag (ds : Option Str) : Str :=
  spacesToUnderscores (pyLower (stripPy (ds.getD [])))

/-- One step of the tag-based loop over a matching row's cells: a cell
whose normalized tag is nonempty writes `translated key ↦ comma-stripped
text` and records that tags were used (`used_ds`). -/
def tagStep (acc : OMap × Bool) (td : Cell) : OMap × Bool :=
  let k := normTag td.dataStat
  if k ≠ [] then (dUpd acc.1 (kmGet k) (removeCommas td.text), true) else acc

/-- The tag-based loop (`row_raw`, `used_ds`). -/
def tagFold (cells : List Cell) : OMap × Bool :=
  cells.foldl tagStep ([], false)

/-- The positional fallback: pair the i-th cell with the i-th header key
(cells beyond the key list are dropped by the zip). -/
def posPath (statKeys : List Str) (cells : List Cell) : OMap :=
  (cells.zip statKeys).foldl
    (fun m p => dUpd m (kmGet p.2) (removeCommas p.1.text)) []

/-- Build the raw field mapping of a matching footer row: tag-based when
any cell supplied a tag, positional otherwise. -/
def buildRowRaw (statKeys : List Str) (cells : List Cell) : OMap :=
  let t := tagFold cells
  if t.2 then t.1 else posPath statKeys cells

/-- `{k: v for k, v in row_raw.items() if k and v != ""}`. -/
def pruneRow (m : OMap) : OMap :=
  m.filter (fun p => p.1 != [] && p.2 != [])

/-- Reorder: `PREFERRED` keys first (in that fixed order), then the
remaining keys in their discovery order. -/
def orderRow (m : OMap) : OMap :=
  let o1 := PREFERRED.foldl (fun o k =>
    match dGet m k with
    | some v => dUpd o k v
    | none => o) []
  m.foldl (fun o p => if (dGet o p.1).isSome then o else dUpd o p.1 p.2) o1

/-- Process one footer row of a retained table: a ranked candidate when the
label matches (`rank 0` exactly for the canonical `pitching_standard` id),
nothing otherwise. -/
def rowCandidate (tid : Str) (statKeys : List Str) (tr : FRow) :
    Option (Nat × OMap) :=
  if matches162 (tr.th.getD []) then
    some ((if tid = str "pitching_standard" then 0 else 1),
          orderRow (pruneRow (buildRowRaw statKeys tr.cells)))
  else none

/-- The ranked candidates one table contributes: nothing unless its
lower-cased id contains `"pitch"` and it has a `tfoot`; otherwise one
candidate per matching footer row, in row order. -/
def tableCandidates (tbl : Table) : List (Nat × OMap) :=
  let tid := pyLower (tbl.id.getD [])
  if containsSub (str "pitch") tid then
    match tbl.tfoot with
    | none => []
    | some frows =>
      frows.foldl (fun acc2 tr =>
        acc2 ++ (rowCandidate tid (build_header_stat_keys tbl) tr).toList) []
  else []

/-- Scan every table in document order and collect the ranked candidates,
in document order. -/
def collectCandidates (tables : List Table) : List (Nat × OMap) :=
  tables.foldl (fun acc tbl => acc ++ tableCandidates tbl) []

/-- `find_pitching_162_row`: stable-sort the candidates by rank (Python's
`list.sort` is a stable sort, and so is `List.insertionSort` with `≤` on
the rank) and return the top candidate's mapping, or absence. -/
def find_pitching_162_row (tables : List Table) : Option OMap :=
  match (collectCandidates tables).insertionSort (fun a b => a.1 ≤ b.1) with
  | [] => none
  | c :: _ => some c.2

example :
    find_pitching_162_row
      [⟨some (str "pitching_standard"),
        some [[⟨some (str "w"), str "W"⟩]],
        some [⟨some (str "162 Game Avg"),
               [⟨some (str "w"), str "11.5"⟩]⟩]⟩] =
      some [(str "W", str "11.5")] := by decide

example : find_pitching_162_row [] = none := by decide

/-! ## Numeric strings and ceiling rounding -/

/-- A string matching `-?\d+(\.\d+)?`: optional minus sign, integer digits,
optional fractional digits. -/
structure DecNum where
  neg : Bool
  intDigits : Str
  fracDigits : Option Str
deriving DecidableEq

/-- ASCII digit test. -/
def isDig (c : Char) : Bool := 48 ≤ c.toNat && c.toNat ≤ 57

/-- Parse the guard regex of the rounding step, anchored at both ends
(`-?\d+(\.\d+)?`); `none` when the string does not match in full. -/
def parseDecCore (neg : Bool) (rest : Str) : Option DecNum :=
  let ds := rest.takeWhile isDig
  let rest2 := rest.dropWhile isDig
  if ds = [] then none
  else if rest2 = [] then some ⟨neg, ds, none⟩
  else if rest2.head? = some '.' then
    (if rest2.tail ≠ [] ∧ rest2.tail.all isDig then some ⟨neg, ds, some rest2.tail⟩
     else none)
  else none

def parseDec (s : Str) : Option DecNum :=
  if s.head? == some '-' then parseDecCore true s.tail else parseDecCore false s

/-- Numeric value of a digit character. -/
def digVal (c : Char) : Nat := c.toNat - 48

/-- Value of a digit string. -/
def digitsToNat (ds : Str) : Nat := ds.foldl (fun a c => 10 * a + digVal c) 0

/-- Ceiling of a parsed decimal string.  This models `math.ceil(float(s))`
in exact (rather than IEEE-754 double) arithmetic; the two agree on every
statistic value the scraper meets. -/
def ceilD (d : DecNum) : Int :=
  let n : Int := digitsToNat d.intDigits
  if d.neg then -n
  else match d.fracDigits with
    | none => n
    | some fr => if fr.all (fun c => c == '0') then n else n + 1

/-- Decimal digits of a natural number (fuel-based so that it is structural
and evaluates inside `decide`; fuel `n + 1` always suffices). -/
def natDigsAux : Nat → Nat → Str
  | 0, _ => []
  | fuel + 1, n =>
    if n < 10 then [Char.ofNat (48 + n)]
    else natDigsAux fuel (n / 10) ++ [Char.ofNat (48 + n % 10)]

/-- Decimal digits of a natural number. -/
def natDigs (n : Nat) : Str := natDigsAux (n + 1) n

/-- Python's `str` of the integer returned by `math.ceil`. -/
def intToDecString (i : Int) : Str :=
  if i < 0 then '-' :: natDigs i.natAbs else natDigs i.toNat

/-- Exact rational value of a parsed decimal string. -/
def decValue (d : DecNum) : ℚ :=
  let base : ℚ := (digitsToNat d.intDigits : ℚ) +
    (match d.fracDigits with
     | none => 0
     | some fr => (digitsToNat fr : ℚ) / 10 ^ fr.length)
  if d.neg then -base else base

/-- The per-field transform of `ceil_counting`: a counting field (outside
the exempt set) with a nonempty numeric value gets its ceiling as a plain
integer string; everything else passes through unchanged. -/
def roundVal (k v : Str) : Str :=
  if k ∈ COUNTING ∧ k ∉ SKIP_ROUND ∧ v ≠ [] then
    match parseDec (stripPy (removeCommas v)) with
    | some d => intToDecString (ceilD d)
    | none => v
  else v

/-- `ceil_counting`: round every counting field of the mapping in place. -/
def ceil_counting (d : OMap) : OMap :=
  d.map (fun p => (p.1, roundVal p.1 p.2))

/-! ## CSV writing and the derived rounded file -/

/-- One CSV data line: `{k: r.get(k, "") for k in header}` in header
order (`write_csv`). -/
def csvRow (header : List Str) (r : OMap) : List Str :=
  header.map (fun k => (dGet r k).getD [])

/-- What `round_counting_columns_in_csv` does to one row at one column. -/
def colStep (r : OMap) (c : Str) : OMap :=
  match dGet r c with
  | none => r
  | some v =>
    if v = [] then r
    else match parseDec (stripPy (removeCommas v)) with
      | some d => dUpd r c (intToDecString (ceilD d))
      | none => r

/-- `round_counting_columns_in_csv`, acting on the parsed rows of the raw
file: ceil the counting columns of every row. -/
def roundCsvRows (header : List Str) (rows : List OMap) : List OMap :=
  let cols := header.filter (fun c => decide (c ∈ COUNTING ∧ c ∉ SKIP_ROUND))
  rows.map (fun r => cols.foldl colStep r)

example : roundVal (str "SO") (str "4.2") = str "5" := by decide
example : roundVal (str "SO") (str "5.0") = str "5" := by decide
example : roundVal (str "SO") (str "-1.2") = str "-1" := by decide
example : roundVal (str "IP") (str "180.2") = str "180.2" := by decide
example : roundVal (str "SO") (str "1,234") = str "1234" := by decide
example : roundVal (str "SO") (str "abc") = str "abc" := by decide

/-! ## Bio parsing -/

/-- A paragraph of the `#meta` region: the texts of its first `strong`
child when one exists (as `get_text(strip=True)` and as plain
`get_text()`), and the paragraph's own `get_text(" ", strip=True)`. -/
structure Para where
  strong : Option (Str × Str)
  fullText : Str
deriving DecidableEq

/-- A fetched page at the interface the extractors read it through: the
heading text when an `h1` exists, the `#meta` region's paragraphs when the
region exists, and every table in document order (live tables first, then
tables reparsed out of comments, as `iter_all_tables` yields them). -/
structure Page where
  h1 : Option Str
  meta : Option (List Para)
  tables : List Table
deriving DecidableEq

/-- `get_display_name`. -/
def get_display_name (pg : Page) : Str := pg.h1.getD []

/-- Python's whitespace split (`str.split()` with no separator). -/
def splitWsAux : Str → Str → List Str
  | cur, [] => if cur = [] then [] else [cur.reverse]
  | cur, c :: rest =>
    if isPySpace c then
      if cur = [] then splitWsAux [] rest else cur.reverse :: splitWsAux [] rest
    else splitWsAux (c :: cur) rest

/-- `s.split()`. -/
def splitWs (s : Str) : List Str := splitWsAux [] s

/-- Generational suffixes (`SUFFIXES`). -/
def SUFFIXES : List Str :=
  [str "Jr.", str "Jr", str "Sr.", str "Sr", str "II", str "III",
   str "IV", str "V"]

/-- `" ".join(parts)`. -/
def joinSp (ps : List Str) : Str := List.intercalate (str " ") ps

/-- `split_first_last_with_suffix`. -/
def split_first_last_with_suffix (full : Str) : Str × Str :=
  let parts := splitWs (stripPy full)
  if parts = [] then ([], [])
  else if parts.length = 1 then (parts.getD 0 [], [])
  else
    let lastP := parts.getD (parts.length - 1) []
    let penP := parts.getD (parts.length - 2) []
    if lastP ∈ SUFFIXES ∧ parts.length ≥ 3 then
      (joinSp (parts.take (parts.length - 2)), penP ++ str " " ++ lastP)
    else (joinSp (parts.take (parts.length - 1)), lastP)

/-- The separators scanned, in this order, by `parse_nickname`. -/
def NICK_SEPS : List Str := [str "•", str ";", str ",", str " / ", str " | "]

/-- Index of the first occurrence of `needle` in `hay`, when it occurs. -/
def findSubIdx (needle : Str) : Str → Option Nat
  | [] => if hasPre needle [] then some 0 else none
  | c :: t =>
    if hasPre needle (c :: t) then some 0
    else (findSubIdx needle t).map (fun i => i + 1)

/-- `raw.split(sep)[0]`: the text before the first occurrence of `sep`. -/
def beforeFirst (sep raw : Str) : Str :=
  match findSubIdx sep raw with
  | some i => raw.take i
  | none => raw

/-- The truncation loop of `parse_nickname`: cut at the first separator of
the fixed list (in list order) that occurs in the text, then stop. -/
def truncAtSep (raw : Str) : Str :=
  match NICK_SEPS.find? (fun sep => containsSub sep raw) with
  | some sep => beforeFirst sep raw
  | none => raw

/-- Case-insensitive literal prefix test. -/
def hasPreCI (needle hay : Str) : Bool := hasPre (pyLower needle) (pyLower hay)

/-- The label-stripping `re.sub` of `parse_nickname` (case-insensitive
`Nickname:`/`Nicknames:` prefix followed by optional whitespace). -/
def stripNickLabel (raw : Str) : Str :=
  if hasPreCI (str "nickname:") raw then (raw.drop 9).dropWhile isPySpace
  else if hasPreCI (str "nicknames:") raw then (raw.drop 10).dropWhile isPySpace
  else raw

/-- `parse_nickname`: the first paragraph whose `strong` label text is
exactly `"Nickname:"` or `"Nicknames:"` yields the nickname; `"N/A"`
otherwise. -/
def parse_nickname : List Para → Str
  | [] => str "N/A"
  | p :: ps =>
    match p.strong with
    | none => parse_nickname ps
    | some st =>
      if st.1 = str "Nickname:" ∨ st.1 = str "Nicknames:" then
        let raw := truncAtSep (stripNickLabel p.fullText)
        if stripPy raw = [] then str "N/A" else stripPy raw
      else parse_nickname ps

/-- The meta region's combined text blob
(`" ".join(p.get_text(" ", strip=True) for p in ...)`). -/
def metaBlob (paras : List Para) : Str :=
  List.intercalate (str " ") (paras.map (fun p => p.fullText))

/-- `re.search`: try a pattern matcher at every position, left to right. -/
def reSearch {α : Type} (f : Str → Option α) : Str → Option α
  | [] => f []
  | c :: t =>
    match f (c :: t) with
    | some r => some r
    | none => reSearch f t

/-- Attempt `Bats:\s*(Right|Left|Both)` (case-insensitive) at the current
position; the matched group is returned already `.title()`-cased. -/
def tryBats (s : Str) : Option Str :=
  if hasPreCI (str "bats:") s then
    let rest := (s.drop 5).dropWhile isPySpace
    if hasPreCI (str "right") rest then some (str "Right")
    else if hasPreCI (str "left") rest then some (str "Left")
    else if hasPreCI (str "both") rest then some (str "Both")
    else none
  else none

/-- Attempt `Throws:\s*(Right|Left)` (case-insensitive). -/
def tryThrows (s : Str) : Option Str :=
  if hasPreCI (str "throws:") s then
    let rest := (s.drop 7).dropWhile isPySpace
    if hasPreCI (str "right") rest then some (str "Right")
    else if hasPreCI (str "left") rest then some (str "Left")
    else none
  else none

/-- Attempt `(\d+)-(\d+)\s*,\s*(\d+)\s*lb` (case-insensitive) at the
current position; returns the three digit groups. -/
def tryHW (s : Str) : Option (Str × Str × Str) :=
  let d1 := s.takeWhile isDig
  if d1 = [] then none
  else match s.dropWhile isDig with
    | '-' :: r2 =>
      let d2 := r2.takeWhile isDig
      if d2 = [] then none
      else match (r2.dropWhile isDig).dropWhile isPySpace with
        | ',' :: r5 =>
          let r6 := r5.dropWhile isPySpace
          let d3 := r6.takeWhile isDig
          if d3 = [] then none
          else if hasPreCI (str "lb") ((r6.dropWhile isDig).dropWhile isPySpace) then
            some (d1, d2, d3)
          else none
        | _ => none
    | _ => none

/-- `parse_height_weight_bats_throws`. -/
def parse_height_weight_bats_throws (paras : List Para) :
    Str × Option Nat × Str × Str :=
  let blob := metaBlob paras
  let bats := match reSearch tryBats blob with
    | some b => if pyLower b = str "both" then str "Both" else b
    | none => []
  let throws := (reSearch tryThrows blob).getD []
  match reSearch tryHW blob with
  | some g => (g.1 ++ [Char.ofNat 39] ++ g.2.1, some (digitsToNat g.2.2), bats, throws)
  | none => ([], none, bats, throws)

/-- `re.findall(r'\(([^)]+)\)', txt)` as a two-state scan: all nonempty
parenthesized groups, left to right, non-overlapping. -/
def parenGroupsAux : Str → Option Str → List Str
  | [], _ => []
  | c :: t, none =>
    if c = '(' then parenGroupsAux t (some []) else parenGroupsAux t none
  | c :: t, some acc =>
    if c = ')' then
      if acc = [] then parenGroupsAux t none
      else acc.reverse :: parenGroupsAux t none
    else parenGroupsAux t (some (c :: acc))

/-- All nonempty parenthesized groups of a text. -/
def parenGroups (s : Str) : List Str := parenGroupsAux s none

/-- Recognized US state and territory codes (`US_STATE_CODES`). -/
def US_STATE_CODES : List Str :=
  [str "AL", str "AK", str "AZ", str "AR", str "CA", str "CO", str "CT",
   str "DE", str "FL", str "GA", str "HI", str "ID", str "IL", str "IN",
   str "IA", str "KS", str "KY", str "LA", str "ME", str "MD", str "MA",
   str "MI", str "MN", str "MS", str "MO", str "MT", str "NE", str "NV",
   str "NH", str "NJ", str "NM", str "NY", str "NC", str "ND", str "OH",
   str "OK", str "OR", str "PA", str "RI", str "SC", str "SD", str "TN",
   str "TX", str "UT", str "VT", str "VA", str "WA", str "WV", str "WI",
   str "WY", str "DC", str "PR", str "GU", str "VI", str "AS", str "MP"]

/-- ASCII behaviour of Python's `str.upper` on one character. -/
def pyUpperChar (c : Char) : Char :=
  if 97 ≤ c.toNat ∧ c.toNat ≤ 122 then Char.ofNat (c.toNat - 32) else c

/-- Python's `str.upper`. -/
def pyUpper (s : Str) : Str := s.map pyUpperChar

/-- The first paragraph whose `strong` plain text contains
`"High School"`. -/
def findHSPara : List Para → Option Para
  | [] => none
  | p :: ps =>
    match p.strong with
    | none => findHSPara ps
    | some st =>
      if containsSub (str "High School") st.2 then some p else findHSPara ps

/-- `loc.split(",")[1]`: the piece between the first and second comma. -/
def splitCommaSecond (loc : Str) : Str :=
  ((loc.dropWhile (fun c => c != ',')).drop 1).takeWhile (fun c => c != ',')

/-- `parse_high_school`: city/state from the last parenthesized group of
the high-school paragraph, country `"USA"` for recognized state codes. -/
def parse_high_school (paras : List Para) : Str × Str × Str :=
  match findHSPara paras with
  | none => ([], [], [])
  | some p =>
    let parens := parenGroups p.fullText
    let loc := parens.getLast?.getD []
    if loc = [] then ([], [], [])
    else
      let cs :=
        if containsSub (str ",") loc then
          (stripPy (loc.takeWhile (fun c => c != ',')), stripPy (splitCommaSecond loc))
        else (stripPy loc, [])
      let country := if pyUpper cs.2 ∈ US_STATE_CODES then str "USA" else []
      (cs.1, cs.2, country)

/-- `if cond: out[key] = value`. -/
def addIf (m : OMap) (b : Bool) (k v : Str) : OMap :=
  if b then dUpd m k v else m

/-- `parse_meta_bio`: the bio mapping extracted from the `#meta` region
(empty when the region is absent). -/
def parse_meta_bio (pg : Page) : OMap :=
  match pg.meta with
  | none => []
  | some paras =>
    let hw := parse_height_weight_bats_throws paras
    let hs := parse_high_school paras
    let out : OMap := [(str "Nickname", parse_nickname paras)]
    let out := addIf out (hw.1 != []) (str "Height") hw.1
    let out := addIf out hw.2.1.isSome (str "Weight_lb") (natDigs (hw.2.1.getD 0))
    let out := addIf out (hw.2.2.1 != []) (str "Bats") hw.2.2.1
    let out := addIf out (hw.2.2.2 != []) (str "Throws") hw.2.2.2
    let out := addIf out (hs.1 != []) (str "HS_City") hs.1
    let out := addIf out (hs.2.1 != []) (str "HS_State") hs.2.1
    let out := addIf out (hs.2.2 != []) (str "HS_Country") hs.2.2
    out

/-! ## The orchestrator (`main`) -/

/-- The fixed record skeleton of `main` (bio/meta defaults). -/
def initRec (url : Str) : OMap :=
  [(str "FirstName", []), (str "LastName", []), (str "Nickname", str "N/A"),
   (str "Height", []), (str "Weight_lb", []), (str "Bats", []),
   (str "Throws", []), (str "HS_City", []), (str "HS_State", []),
   (str "HS_Country", []), (str "BaseballReferenceURL", url),
   (str "error", [])]

/-- One subject of `main`'s loop: fetch, bio extraction, career-row
extraction, ceiling rounding.  The network is a parameter
(`fetch url = none` models a failed fetch).  Python's `if row:` is a
truthiness test on `Optional[Dict]`: it is falsy both for `None` and for
an empty dict, so `some []` takes the `162_row_not_found` branch exactly
like `none`. -/
def processUrl (fetch : Str → Option Page) (url : Str) : OMap :=
  match fetch url with
  | none => dUpd (initRec url) (str "error") (str "fetch_failed")
  | some pg =>
    let nm := split_first_last_with_suffix (get_display_name pg)
    let r1 := dUpd (dUpd (initRec url) (str "FirstName") nm.1) (str "LastName") nm.2
    let r2 := dUpdAll r1 (parse_meta_bio pg)
    match find_pitching_162_row pg.tables with
    | some row =>
      if row = [] then dUpd r2 (str "error") (str "162_row_not_found")
      else dUpdAll r2 (ceil_counting row)
    | none => dUpd r2 (str "error") (str "162_row_not_found")

/-- `main`'s record list: every URL yields exactly one record. -/
def mainRows (fetch : Str → Option Page) (urls : List Str) : List OMap :=
  urls.map (processUrl fetch)

/-- `all_fields`: the statistic-field names observed across the found rows
(kept as a duplicate-free list; `main` keeps a set, used only for
membership and for the sorted extras).  The update sits inside the same
`if row:` truthiness guard as the record update, so an empty mapping
contributes nothing. -/
def allFields (fetch : Str → Option Page) (urls : List Str) : List Str :=
  urls.foldl (fun acc url =>
    match fetch url with
    | none => acc
    | some pg =>
      match find_pitching_162_row pg.tables with
      | some row =>
        if row = [] then acc
        else acc ++ (row.map Prod.fst).filter (fun k => decide (k ∉ acc))
      | none => acc) []

/-- Python's `<=` on strings (code-point lexicographic). -/
def strLe : Str → Str → Bool
  | [], _ => true
  | _ :: _, [] => false
  | a :: as, b :: bs =>
    if a.toNat < b.toNat then true
    else if b.toNat < a.toNat then false
    else strLe as bs

/-- The fixed bio/meta columns of the output header. -/
def BASE_HEADER : List Str :=
  [str "FirstName", str "LastName", str "Nickname", str "Height",
   str "Weight_lb", str "Bats", str "Throws", str "HS_City",
   str "HS_State", str "HS_Country", str "BaseballReferenceURL",
   str "error"]

/-- `main`'s output header: fixed bio/meta columns, then the `PREFERRED`
statistic columns that occur in `all_fields`, then the remaining observed
fields in sorted order. -/
def buildHeader (fields : List Str) : List Str :=
  let h1 := BASE_HEADER ++
    PREFERRED.filter (fun c => decide (c ∈ fields ∧ c ∉ BASE_HEADER))
  h1 ++ (fields.filter (fun c => decide (c ∉ h1))).insertionSort
    (fun a b => strLe a b = true)

/-- The data lines of `pitchers_162_raw.csv`. -/
def rawCsvLines (fetch : Str → Option Page) (urls : List Str) : List (List Str) :=
  (mainRows fetch urls).map (csvRow (buildHeader (allFields fetch urls)))

/-- `round_counting_columns_in_csv`: re-read the raw file's lines as
records keyed by the header, ceil the counting columns, write back out. -/
def round_counting_columns_in_csv (header : List Str) (lines : List (List Str)) :
    List (List Str) :=
  (roundCsvRows header (lines.map (fun line => header.zip line))).map (csvRow header)

/-- The data lines of `pitchers_162_rounded.csv`. -/
def roundedCsvLines (fetch : Str → Option Page) (urls : List Str) : List (List Str) :=
  round_counting_columns_in_csv (buildHeader (allFields fetch urls))
    (rawCsvLines fetch urls)

example :
    parse_nickname [⟨some (str "Nickname:", str "Nickname:"),
                     str "Nickname: Big Papi, The Natural"⟩] = str "Big Papi" := by
  decide

example : parse_nickname [] = str "N/A" := by decide

example :
    split_first_last_with_suffix (str "David Smith Jr.") =
      (str "David", str "Smith Jr.") := by decide

example : split_first_last_with_suffix (str "Ichiro") = (str "Ichiro", []) := by decide
/-! ## Character-level lemmas -/

theorem toNat_ofNat_valid (n : Nat) (h : Nat.isValidChar n) :
    (Char.ofNat n).toNat = n := by
  unfold Char.ofNat
  rw [dif_pos h]
  simp [Char.ofNatAux, Char.toNat, UInt32.toNat]

theorem char_eq_of_toNat_eq {c d : Char} (h : c.toNat = d.toNat) : c = d := by
  have h2 := congrArg Char.ofNat h
  rwa [Char.ofNat_toNat, Char.ofNat_toNat] at h2

theorem pyLowerChar_toNat (c : Char) :
    (pyLowerChar c).toNat =
      if 65 ≤ c.toNat ∧ c.toNat ≤ 90 then c.toNat + 32 else c.toNat := by
  unfold pyLowerChar
  split
  · next h => exact toNat_ofNat_valid _ (Or.inl (by omega))
  · rfl

theorem pyLowerChar_eq_self {c : Char} (h : ¬(65 ≤ c.toNat ∧ c.toNat ≤ 90)) :
    pyLowerChar c = c := by
  unfold pyLowerChar
  rw [if_neg h]

theorem isPySpace_iff (c : Char) :
    isPySpace c = true ↔
      c.toNat = 32 ∨ c.toNat = 9 ∨ c.toNat = 10 ∨ c.toNat = 13 ∨
      c.toNat = 11 ∨ c.toNat = 12 ∨ c.toNat = 28 ∨ c.toNat = 29 ∨
      c.toNat = 30 ∨ c.toNat = 31 ∨ c.toNat = 0x85 ∨ c.toNat = 0xa0 ∨
      c.toNat = 0x1680 ∨ (0x2000 ≤ c.toNat ∧ c.toNat ≤ 0x200a) ∨
      c.toNat = 0x2028 ∨ c.toNat = 0x2029 ∨ c.toNat = 0x202f ∨
      c.toNat = 0x205f ∨ c.toNat = 0x3000 := by
  constructor
  · intro h
    simp [isPySpace] at h
    omega
  · intro h
    simp [isPySpace]
    omega

theorem isPySpace_pyLowerChar (c : Char) :
    isPySpace (pyLowerChar c) = isPySpace c := by
  by_cases h : 65 ≤ c.toNat ∧ c.toNat ≤ 90
  · have h1 : (pyLowerChar c).toNat = c.toNat + 32 := by
      rw [pyLowerChar_toNat, if_pos h]
    rw [Bool.eq_iff_iff, isPySpace_iff, isPySpace_iff, h1]
    omega
  · rw [pyLowerChar_eq_self h]

theorem pyLowerChar_idem (c : Char) :
    pyLowerChar (pyLowerChar c) = pyLowerChar c := by
  by_cases h : 65 ≤ c.toNat ∧ c.toNat ≤ 90
  · exact pyLowerChar_eq_self (by rw [pyLowerChar_toNat, if_pos h]; omega)
  · rw [pyLowerChar_eq_self h, pyLowerChar_eq_self h]

theorem pyLowerChar_ne_of_ne {c b : Char}
    (hb : ¬(97 ≤ b.toNat ∧ b.toNat ≤ 122)) (h : c ≠ b) : pyLowerChar c ≠ b := by
  intro he
  by_cases hu : 65 ≤ c.toNat ∧ c.toNat ≤ 90
  · have h1 : (pyLowerChar c).toNat = c.toNat + 32 := by
      rw [pyLowerChar_toNat, if_pos hu]
    have h2 := congrArg Char.toNat he
    omega
  · exact h ((pyLowerChar_eq_self hu) ▸ he)

/-! ## The normal form preserved by `nlabel` (claim C9) -/

/-- Adjacent characters are not both whitespace. -/
def RelNoSpace (a b : Char) : Prop :=
  ¬(isPySpace a = true ∧ isPySpace b = true)

/-- The shape of `nlabel`'s output: no dot, no zero-width space, the only
whitespace is isolated interior `' '`, and everything lower-cased. -/
def NForm (t : Str) : Prop :=
  (∀ c ∈ t, c ≠ '.' ∧ c ≠ '\u200b' ∧ (isPySpace c = true → c = ' ') ∧
    pyLowerChar c = c) ∧
  List.Chain' RelNoSpace t ∧
  (∀ c, t.head? = some c → isPySpace c = false) ∧
  (∀ c, t.getLast? = some c → isPySpace c = false)

theorem map_fix {α : Type} {f : α → α} {l : List α} (h : ∀ x ∈ l, f x = x) :
    l.map f = l :=
  (List.map_congr_left h).trans (List.map_id _)

theorem collapseWs_cons₂ (c c2 : Char) (rest : Str) :
    collapseWs (c :: c2 :: rest) =
      if isPySpace c then
        (if isPySpace c2 then collapseWs (c2 :: rest)
         else ' ' :: collapseWs (c2 :: rest))
      else c :: collapseWs (c2 :: rest) := rfl

theorem collapseWs_singleton (c : Char) :
    collapseWs [c] = if isPySpace c then [' '] else [c] := rfl

theorem collapseWs_fixed :
    ∀ {t : Str}, (∀ c ∈ t, isPySpace c = true → c = ' ') →
      List.Chain' RelNoSpace t → collapseWs t = t
  | [], _, _ => rfl
  | [c], h, _ => by
    rw [collapseWs_singleton]
    by_cases hs : isPySpace c = true
    · rw [if_pos hs, h c (by simp) hs]
    · rw [if_neg (by simp [hs])]
  | c :: c2 :: rest, h, hch => by
    rw [List.chain'_cons] at hch
    have ih := collapseWs_fixed (t := c2 :: rest)
      (fun x hx h2 => h x (by simp [hx]) h2) hch.2
    rw [collapseWs_cons₂, ih]
    by_cases hs : isPySpace c = true
    · have hc2 : ¬ isPySpace c2 = true := fun hs2 => hch.1 ⟨hs, hs2⟩
      rw [if_pos (by simp [hs]), if_neg (by simp [hc2]), h c (by simp) hs]
    · rw [if_neg (by simp [hs])]

theorem dropWhile_fixed {t : Str} {p : Char → Bool}
    (h : ∀ c, t.head? = some c → p c = false) : t.dropWhile p = t := by
  cases t with
  | nil => rfl
  | cons a l =>
    rw [List.dropWhile_cons, if_neg]
    simp [h a rfl]

theorem stripPy_fixed {t : Str}
    (hh : ∀ c, t.head? = some c → isPySpace c = false)
    (hl : ∀ c, t.getLast? = some c → isPySpace c = false) : stripPy t = t := by
  unfold stripPy
  rw [dropWhile_fixed hh, dropWhile_fixed
    (fun c hc => hl c (by rwa [List.getLast?_eq_head?_reverse])),
    List.reverse_reverse]

theorem nlabel_fixed_of_nform {t : Str} (h : NForm t) : nlabel t = t := by
  obtain ⟨hc, hch, hh, hl⟩ := h
  have h0 : replaceNbsp t = t := map_fix (fun c hct => by
    by_cases hcn : c = '\xa0'
    · subst hcn
      exact absurd ((hc _ hct).2.2.1 (by decide)) (by decide)
    · simp [hcn])
  have h1 : removeDotZw t = t := List.filter_eq_self.mpr (fun c hct => by
    simp [(hc c hct).1, (hc c hct).2.1])
  have h2 : collapseWs t = t :=
    collapseWs_fixed (fun c hct => (hc c hct).2.2.1) hch
  have h3 : stripPy t = t := stripPy_fixed hh hl
  have h4 : pyLower t = t := map_fix (fun c hct => (hc c hct).2.2.2)
  unfold nlabel
  rw [h0, h1, h2, h3, h4]

theorem mem_collapseWs :
    ∀ {s : Str} {c : Char}, c ∈ collapseWs s →
      c = ' ' ∨ (isPySpace c = false ∧ c ∈ s)
  | [], c, h => absurd h (by simp [collapseWs])
  | [a], c, h => by
    rw [collapseWs_singleton] at h
    by_cases hs : isPySpace a = true
    · rw [if_pos (by simp [hs])] at h
      left
      simpa using h
    · rw [if_neg (by simp [hs])] at h
      simp at h
      subst h
      exact Or.inr ⟨by simp [hs], by simp⟩
  | a :: a2 :: rest, c, h => by
    rw [collapseWs_cons₂] at h
    by_cases hs : isPySpace a = true
    · rw [if_pos (by simp [hs])] at h
      by_cases hs2 : isPySpace a2 = true
      · rw [if_pos (by simp [hs2])] at h
        rcases mem_collapseWs h with h1 | h2
        · exact Or.inl h1
        · exact Or.inr ⟨h2.1, by simp [h2.2]⟩
      · rw [if_neg (by simp [hs2])] at h
        rcases List.mem_cons.mp h with h1 | h2
        · exact Or.inl h1
        · rcases mem_collapseWs h2 with h3 | h4
          · exact Or.inl h3
          · exact Or.inr ⟨h4.1, by simp [h4.2]⟩
    · rw [if_neg (by simp [hs])] at h
      rcases List.mem_cons.mp h with h1 | h2
      · exact Or.inr ⟨by simp [h1, hs], by simp [h1]⟩
      · rcases mem_collapseWs h2 with h3 | h4
        · exact Or.inl h3
        · exact Or.inr ⟨h4.1, by simp [h4.2]⟩

theorem head_collapseWs_nonspace {a : Char} (l : Str)
    (h : ¬ isPySpace a = true) : (collapseWs (a :: l)).head? = some a := by
  cases l with
  | nil => rw [collapseWs_singleton, if_neg (by simp [h])]; rfl
  | cons b t => rw [collapseWs_cons₂, if_neg (by simp [h])]; rfl

theorem chain'_collapseWs : ∀ (s : Str), List.Chain' RelNoSpace (collapseWs s)
  | [] => List.chain'_nil
  | [a] => by
    rw [collapseWs_singleton]
    split
    · exact List.chain'_singleton _
    · exact List.chain'_singleton _
  | a :: a2 :: rest => by
    have ih := chain'_collapseWs (a2 :: rest)
    rw [collapseWs_cons₂]
    by_cases hs : isPySpace a = true
    · rw [if_pos (by simp [hs])]
      by_cases hs2 : isPySpace a2 = true
      · rwa [if_pos (by simp [hs2])]
      · rw [if_neg (by simp [hs2])]
        refine List.chain'_cons'.mpr ⟨?_, ih⟩
        intro y hy
        rw [head_collapseWs_nonspace rest hs2] at hy
        simp at hy
        subst hy
        exact fun hab => hs2 hab.2
    · rw [if_neg (by simp [hs])]
      refine List.chain'_cons'.mpr ⟨?_, ih⟩
      exact fun y _ hab => hs hab.1

theorem stripPy_subset {t : Str} {c : Char} (h : c ∈ stripPy t) : c ∈ t := by
  unfold stripPy at h
  rw [List.mem_reverse] at h
  have h1 := (List.dropWhile_suffix (l := (t.dropWhile isPySpace).reverse)
    isPySpace).sublist.subset h
  rw [List.mem_reverse] at h1
  exact (List.dropWhile_suffix isPySpace).sublist.subset h1

theorem pre_of_rev_suf {l₁ l₂ : List Char} (h : l₁.reverse <:+ l₂.reverse) :
    l₁ <+: l₂ := List.reverse_suffix.mp h

theorem stripPy_pre (t : Str) : stripPy t <+: t.dropWhile isPySpace := by
  apply pre_of_rev_suf
  unfold stripPy
  rw [List.reverse_reverse]
  exact List.dropWhile_suffix isPySpace

theorem head?_of_pre {l₁ l₂ : List Char} {c : Char} (h : l₁ <+: l₂)
    (hc : l₁.head? = some c) : l₂.head? = some c := by
  obtain ⟨r, rfl⟩ := h
  cases l₁ with
  | nil => simp at hc
  | cons a t => simpa using hc

theorem head?_dropWhile_false {p : Char → Bool} {l : List Char} {c : Char}
    (h : (l.dropWhile p).head? = some c) : p c = false := by
  have hx := List.head?_dropWhile_not p l
  rw [h] at hx
  exact hx

theorem chain'_of_pre {R : Char → Char → Prop} {l l₁ : Str}
    (h : List.Chain' R l) (hp : l₁ <+: l) : List.Chain' R l₁ := by
  have h1 : List.Chain' (flip R) l.reverse :=
    (List.chain'_reverse (R := flip R) (l := l)).mpr h
  have h2 : List.Chain' (flip R) l₁.reverse :=
    h1.suffix (List.reverse_suffix.mpr hp)
  exact (List.chain'_reverse (R := flip R) (l := l₁)).mp h2

theorem chain'_stripPy {t : Str} (h : List.Chain' RelNoSpace t) :
    List.Chain' RelNoSpace (stripPy t) :=
  chain'_of_pre (h.suffix (List.dropWhile_suffix isPySpace)) (stripPy_pre t)

theorem head?_stripPy_nonspace {t : Str} {c : Char}
    (h : (stripPy t).head? = some c) : isPySpace c = false :=
  head?_dropWhile_false (head?_of_pre (stripPy_pre t) h)

theorem getLast?_stripPy_nonspace {t : Str} {c : Char}
    (h : (stripPy t).getLast? = some c) : isPySpace c = false := by
  rw [List.getLast?_eq_head?_reverse] at h
  unfold stripPy at h
  rw [List.reverse_reverse] at h
  exact head?_dropWhile_false h

theorem nform_nlabel (s : Str) : NForm (nlabel s) := by
  have f1 : ∀ c ∈ removeDotZw (replaceNbsp s), c ≠ '.' ∧ c ≠ '\u200b' := by
    intro c hc
    have := List.mem_filter.mp hc
    have h2 := this.2
    simp at h2
    exact h2
  have f2 : ∀ c ∈ collapseWs (removeDotZw (replaceNbsp s)),
      c ≠ '.' ∧ c ≠ '\u200b' ∧ (isPySpace c = true → c = ' ') := by
    intro c hc
    rcases mem_collapseWs hc with h1 | h2
    · subst h1
      exact ⟨by decide, by decide, fun _ => rfl⟩
    · exact ⟨(f1 c h2.2).1, (f1 c h2.2).2, fun hsp => absurd hsp (by simp [h2.1])⟩
  have f3 : ∀ c ∈ stripPy (collapseWs (removeDotZw (replaceNbsp s))),
      c ≠ '.' ∧ c ≠ '\u200b' ∧ (isPySpace c = true → c = ' ') :=
    fun c hc => f2 c (stripPy_subset hc)
  refine ⟨?_, ?_, ?_, ?_⟩
  · intro c hc
    unfold nlabel pyLower at hc
    obtain ⟨a, ha, rfl⟩ := List.mem_map.mp hc
    obtain ⟨g1, g2, g3⟩ := f3 a ha
    refine ⟨pyLowerChar_ne_of_ne (by decide) g1,
      pyLowerChar_ne_of_ne (by decide) g2, ?_, pyLowerChar_idem a⟩
    intro hsp
    rw [isPySpace_pyLowerChar] at hsp
    rw [g3 hsp]
    decide
  · unfold nlabel pyLower
    rw [List.chain'_map]
    apply List.Chain'.imp ?_ (chain'_stripPy (chain'_collapseWs _))
    intro a b hab h2
    rw [isPySpace_pyLowerChar, isPySpace_pyLowerChar] at h2
    exact hab h2
  · intro c hc
    unfold nlabel pyLower at hc
    rw [List.head?_map] at hc
    cases hh : (stripPy (collapseWs (removeDotZw (replaceNbsp s)))).head? with
    | none => rw [hh] at hc; simp at hc
    | some a =>
      rw [hh] at hc
      simp at hc
      rw [← hc, isPySpace_pyLowerChar]
      exact head?_stripPy_nonspace hh
  · intro c hc
    unfold nlabel pyLower at hc
    rw [List.getLast?_map] at hc
    cases hh : (stripPy (collapseWs (removeDotZw (replaceNbsp s)))).getLast? with
    | none => rw [hh] at hc; simp at hc
    | some a =>
      rw [hh] at hc
      simp at hc
      rw [← hc, isPySpace_pyLowerChar]
      exact getLast?_stripPy_nonspace hh

/-- C9: the label normalizer `nlabel` is a total pure function of its
input (it is a Lean function) and is idempotent:
`nlabel (nlabel L) = nlabel L` for every string `L`. -/
theorem spec_c9_nlabel_idempotent (s : Str) : nlabel (nlabel s) = nlabel s :=
  nlabel_fixed_of_nform (nform_nlabel s)

/-! ## Lemmas on decimal strings (claims C7, C10, C1) -/

theorem digVal_lt_ten {c : Char} (h : isDig c = true) : digVal c < 10 := by
  simp [isDig] at h
  unfold digVal
  omega

theorem digitsToNat_append (ds : Str) (c : Char) :
    digitsToNat (ds ++ [c]) = 10 * digitsToNat ds + digVal c := by
  unfold digitsToNat
  rw [List.foldl_append]
  rfl

theorem digitsToNat_aux_lt :
    ∀ (ds : Str) (acc : Nat), (∀ c ∈ ds, isDig c = true) →
      ds.foldl (fun a c => 10 * a + digVal c) acc < (acc + 1) * 10 ^ ds.length
  | [], acc, _ => by simp
  | c :: t, acc, h => by
    have hd := digVal_lt_ten (h c (by simp))
    have ih := digitsToNat_aux_lt t (10 * acc + digVal c)
      (fun x hx => h x (by simp [hx]))
    rw [List.foldl_cons, List.length_cons]
    calc t.foldl (fun a c => 10 * a + digVal c) (10 * acc + digVal c)
        < (10 * acc + digVal c + 1) * 10 ^ t.length := ih
      _ ≤ ((acc + 1) * 10) * 10 ^ t.length :=
          Nat.mul_le_mul_right _ (by omega)
      _ = (acc + 1) * 10 ^ (t.length + 1) := by ring

theorem digitsToNat_lt {ds : Str} (h : ∀ c ∈ ds, isDig c = true) :
    digitsToNat ds < 10 ^ ds.length := by
  have h2 := digitsToNat_aux_lt ds 0 h
  simpa [digitsToNat] using h2

theorem digitsToNat_aux_zero :
    ∀ (ds : Str) (acc : Nat), (∀ c ∈ ds, isDig c = true) →
      (ds.foldl (fun a c => 10 * a + digVal c) acc = 0 ↔
        (acc = 0 ∧ ∀ c ∈ ds, c = '0'))
  | [], acc, _ => by simp
  | c :: t, acc, h => by
    have hdig := h c (by simp)
    have ih := digitsToNat_aux_zero t (10 * acc + digVal c)
      (fun x hx => h x (by simp [hx]))
    rw [List.foldl_cons, ih]
    constructor
    · rintro ⟨h1, h2⟩
      have hz : digVal c = 0 := by omega
      have hc : c = '0' := by
        apply char_eq_of_toNat_eq
        have h48 : ('0' : Char).toNat = 48 := by decide
        simp [isDig] at hdig
        unfold digVal at hz
        omega
      refine ⟨by omega, fun x hx => ?_⟩
      rcases List.mem_cons.mp hx with h3 | h3
      · exact h3 ▸ hc
      · exact h2 x h3
    · rintro ⟨h1, h2⟩
      have hc : c = '0' := h2 c (by simp)
      have hz : digVal c = 0 := by subst hc; decide
      exact ⟨by omega, fun x hx => h2 x (by simp [hx])⟩

theorem digitsToNat_zero_iff {ds : Str} (h : ∀ c ∈ ds, isDig c = true) :
    digitsToNat ds = 0 ↔ ds.all (fun c => c == '0') = true := by
  unfold digitsToNat
  rw [digitsToNat_aux_zero ds 0 h]
  simp

theorem ceilD_eq_ceil {d : DecNum}
    (hi : ∀ c ∈ d.intDigits, isDig c = true)
    (hf : ∀ fr, d.fracDigits = some fr → fr ≠ [] ∧ ∀ c ∈ fr, isDig c = true) :
    ceilD d = ⌈decValue d⌉ := by
  obtain ⟨neg, ids, frs⟩ := d
  cases frs with
  | none =>
    cases neg with
    | false => simp [ceilD, decValue]
    | true => simp [ceilD, decValue, Int.ceil_neg]
  | some fr =>
    have hfr := hf fr rfl
    have hq1 : (digitsToNat fr : ℚ) / 10 ^ fr.length < 1 := by
      rw [div_lt_one (by positivity)]
      exact_mod_cast digitsToNat_lt hfr.2
    by_cases hz : fr.all (fun c => c == '0') = true
    · have h0 : digitsToNat fr = 0 := (digitsToNat_zero_iff hfr.2).mpr hz
      cases neg with
      | false => simp [ceilD, decValue, hz, h0]
      | true => simp [ceilD, decValue, hz, h0, Int.ceil_neg]
    · have h0 : digitsToNat fr ≠ 0 :=
        fun hh => hz ((digitsToNat_zero_iff hfr.2).mp hh)
      have hqpos : 0 < (digitsToNat fr : ℚ) / 10 ^ fr.length := by
        apply div_pos _ (by positivity)
        exact_mod_cast Nat.pos_of_ne_zero h0
      cases neg with
      | false =>
        simp only [ceilD, decValue, hz, if_false, Bool.false_eq_true, if_neg]
        symm
        rw [Int.ceil_eq_iff]
        constructor
        · push_cast
          linarith
        · push_cast
          linarith
      | true =>
        simp only [ceilD, decValue, hz, Bool.false_eq_true, if_neg, if_true]
        symm
        rw [Int.ceil_neg, neg_eq_iff_eq_neg, neg_neg]
        rw [Int.floor_eq_iff]
        constructor
        · push_cast
          linarith
        · push_cast
          linarith

theorem isDig_ofNat_digit (m : Nat) (h : m < 10) :
    isDig (Char.ofNat (48 + m)) = true := by
  have ht : (Char.ofNat (48 + m)).toNat = 48 + m :=
    toNat_ofNat_valid _ (Or.inl (by omega))
  simp [isDig, ht]
  omega

theorem natDigsAux_succ (fuel n : Nat) :
    natDigsAux (fuel + 1) n =
      if n < 10 then [Char.ofNat (48 + n)]
      else natDigsAux fuel (n / 10) ++ [Char.ofNat (48 + n % 10)] := rfl

theorem natDigsAux_spec :
    ∀ (fuel n : Nat), n < 10 ^ (fuel + 1) →
      (∀ c ∈ natDigsAux (fuel + 1) n, isDig c = true) ∧
      natDigsAux (fuel + 1) n ≠ [] ∧
      digitsToNat (natDigsAux (fuel + 1) n) = n := by
  intro fuel
  induction fuel with
  | zero =>
    intro n hn
    have h10 : n < 10 := by simpa using hn
    have heq : natDigsAux 1 n = [Char.ofNat (48 + n)] := by
      rw [natDigsAux_succ, if_pos h10]
    rw [heq]
    have ht : (Char.ofNat (48 + n)).toNat = 48 + n :=
      toNat_ofNat_valid _ (Or.inl (by omega))
    refine ⟨fun c hc => ?_, by simp, ?_⟩
    · have : c = Char.ofNat (48 + n) := by simpa using hc
      rw [this]
      exact isDig_ofNat_digit n h10
    · simp [digitsToNat, digVal, ht]
  | succ f ih =>
    intro n hn
    by_cases h10 : n < 10
    · have heq : natDigsAux (f + 1 + 1) n = [Char.ofNat (48 + n)] := by
        rw [natDigsAux_succ, if_pos h10]
      rw [heq]
      have ht : (Char.ofNat (48 + n)).toNat = 48 + n :=
        toNat_ofNat_valid _ (Or.inl (by omega))
      refine ⟨fun c hc => ?_, by simp, ?_⟩
      · have : c = Char.ofNat (48 + n) := by simpa using hc
        rw [this]
        exact isDig_ofNat_digit n h10
      · simp [digitsToNat, digVal, ht]
    · have heq : natDigsAux (f + 1 + 1) n =
          natDigsAux (f + 1) (n / 10) ++ [Char.ofNat (48 + n % 10)] := by
        rw [natDigsAux_succ, if_neg h10]
      have hdiv : n / 10 < 10 ^ (f + 1) := by
        rw [Nat.div_lt_iff_lt_mul (by omega)]
        calc n < 10 ^ (f + 1 + 1) := hn
          _ = 10 ^ (f + 1) * 10 := by ring
      obtain ⟨ih1, ih2, ih3⟩ := ih (n / 10) hdiv
      have hm : n % 10 < 10 := Nat.mod_lt _ (by omega)
      have ht : (Char.ofNat (48 + n % 10)).toNat = 48 + n % 10 :=
        toNat_ofNat_valid _ (Or.inl (by omega))
      rw [heq]
      refine ⟨fun c hc => ?_, by simp, ?_⟩
      · rcases List.mem_append.mp hc with h1 | h1
        · exact ih1 c h1
        · have : c = Char.ofNat (48 + n % 10) := by simpa using h1
          rw [this]
          exact isDig_ofNat_digit _ hm
      · rw [digitsToNat_append, ih3]
        unfold digVal
        rw [ht]
        omega

theorem natDigs_spec (n : Nat) :
    (∀ c ∈ natDigs n, isDig c = true) ∧ natDigs n ≠ [] ∧
      digitsToNat (natDigs n) = n := by
  apply natDigsAux_spec
  calc n < 2 ^ n := Nat.lt_two_pow n
    _ ≤ 10 ^ n := Nat.pow_le_pow_left (by omega) n
    _ ≤ 10 ^ (n + 1) := Nat.pow_le_pow_right (by omega) (by omega)

theorem isDig_props {c : Char} (h : isDig c = true) :
    (c != ',') = true ∧ isPySpace c = false ∧ c ≠ '-' ∧ c ≠ '.' := by
  simp [isDig] at h
  have h44 : (',' : Char).toNat = 44 := by decide
  have h45 : ('-' : Char).toNat = 45 := by decide
  have h46 : ('.' : Char).toNat = 46 := by decide
  refine ⟨?_, ?_, ?_, ?_⟩
  · simp
    intro he
    rw [he, h44] at h
    omega
  · by_contra hsp
    have h2 := (isPySpace_iff c).mp (by revert hsp; cases isPySpace c <;> simp)
    omega
  · intro he
    rw [he, h45] at h
    omega
  · intro he
    rw [he, h46] at h
    omega

theorem mem_of_head?_eq {l : Str} {c : Char} (h : l.head? = some c) : c ∈ l := by
  cases l with
  | nil => simp at h
  | cons a t =>
    simp at h
    simp [h]

theorem mem_of_getLast?_eq {l : Str} {c : Char} (h : l.getLast? = some c) :
    c ∈ l := by
  rw [List.getLast?_eq_head?_reverse] at h
  have := mem_of_head?_eq h
  rwa [List.mem_reverse] at this

theorem intToDecString_chars {i : Int} {c : Char} (h : c ∈ intToDecString i) :
    c = '-' ∨ isDig c = true := by
  unfold intToDecString at h
  split at h
  · rcases List.mem_cons.mp h with h1 | h1
    · exact Or.inl h1
    · exact Or.inr ((natDigs_spec _).1 c h1)
  · exact Or.inr ((natDigs_spec _).1 c h)

theorem intToDecString_ne_nil (i : Int) : intToDecString i ≠ [] := by
  unfold intToDecString
  split
  · simp
  · exact (natDigs_spec _).2.1

theorem removeCommas_intToDecString (i : Int) :
    removeCommas (intToDecString i) = intToDecString i := by
  apply List.filter_eq_self.mpr
  intro c hc
  rcases intToDecString_chars hc with h1 | h1
  · subst h1
    decide
  · exact (isDig_props h1).1

theorem stripPy_intToDecString (i : Int) :
    stripPy (intToDecString i) = intToDecString i := by
  have hns : ∀ c ∈ intToDecString i, isPySpace c = false := by
    intro c hc
    rcases intToDecString_chars hc with h1 | h1
    · subst h1
      decide
    · exact (isDig_props h1).2.1
  exact stripPy_fixed (fun c hc => hns c (mem_of_head?_eq hc))
    (fun c hc => hns c (mem_of_getLast?_eq hc))

theorem parseDecCore_digits (neg : Bool) {ds : Str} (hne : ds ≠ [])
    (hd : ∀ c ∈ ds, isDig c = true) :
    parseDecCore neg ds = some ⟨neg, ds, none⟩ := by
  have hdw : ds.dropWhile isDig = [] :=
    List.dropWhile_eq_nil_iff.mpr (fun x hx => hd x hx)
  have htw : ds.takeWhile isDig = ds := by
    have h2 := List.takeWhile_append_dropWhile isDig ds
    rwa [hdw, List.append_nil] at h2
  simp only [parseDecCore]
  rw [htw, hdw]
  simp [hne]

theorem parseDec_digits {ds : Str} (hne : ds ≠ [])
    (hd : ∀ c ∈ ds, isDig c = true) : parseDec ds = some ⟨false, ds, none⟩ := by
  have hhead : (ds.head? == some '-') = false := by
    cases ds with
    | nil => simp at hne
    | cons a t =>
      have hne2 : a ≠ '-' := (isDig_props (hd a (by simp))).2.2.1
      simp [hne2]
  unfold parseDec
  rw [hhead]
  simp only [Bool.false_eq_true, if_false]
  exact parseDecCore_digits false hne hd

theorem parseDec_neg_digits {ds : Str} (hne : ds ≠ [])
    (hd : ∀ c ∈ ds, isDig c = true) :
    parseDec ('-' :: ds) = some ⟨true, ds, none⟩ := by
  have hhead : ((('-' :: ds).head? == some '-')) = true := by simp
  unfold parseDec
  rw [hhead]
  simp only [if_true]
  exact parseDecCore_digits true hne hd

theorem parse_intToDecString (i : Int) :
    ∃ d, parseDec (stripPy (removeCommas (intToDecString i))) = some d ∧
      ceilD d = i := by
  rw [removeCommas_intToDecString, stripPy_intToDecString]
  unfold intToDecString
  split
  · next hneg =>
    refine ⟨⟨true, natDigs i.natAbs, none⟩,
      parseDec_neg_digits (natDigs_spec _).2.1 (natDigs_spec _).1, ?_⟩
    have hval : ceilD ⟨true, natDigs i.natAbs, none⟩ =
        -(digitsToNat (natDigs i.natAbs) : Int) := rfl
    rw [hval, (natDigs_spec i.natAbs).2.2]
    omega
  · next hneg =>
    refine ⟨⟨false, natDigs i.toNat, none⟩,
      parseDec_digits (natDigs_spec _).2.1 (natDigs_spec _).1, ?_⟩
    have hval : ceilD ⟨false, natDigs i.toNat, none⟩ =
        (digitsToNat (natDigs i.toNat) : Int) := rfl
    rw [hval, (natDigs_spec i.toNat).2.2]
    omega

/-! ## Lemmas on ordered dicts -/

theorem map_eq_self_mem {α : Type} {f : α → α} {l : List α} (h : l.map f = l) :
    ∀ x ∈ l, f x = x := by
  induction l with
  | nil => simp
  | cons a t ih =>
    simp only [List.map_cons, List.cons.injEq] at h
    intro x hx
    rcases List.mem_cons.mp hx with h1 | h1
    · exact h1 ▸ h.1
    · exact ih h.2 x h1

theorem find?_map_keyrep {r : OMap} {c v : Str}
    (hany : r.any (fun p => p.1 == c) = true) :
    (r.map (fun p => if p.1 == c then (c, v) else p)).find?
      (fun p => p.1 == c) = some (c, v) := by
  induction r with
  | nil => simp at hany
  | cons p t ih =>
    rw [List.map_cons, List.find?_cons]
    by_cases hp : (p.1 == c) = true
    · have h2 : (if (p.1 == c) = true then (c, v) else p) = (c, v) := if_pos hp
      rw [h2]
      have h3 : (((c, v) : Str × Str).1 == c) = true := by simp
      rw [h3]
    · have h2 : (if (p.1 == c) = true then (c, v) else p) = p := if_neg hp
      have h4 : (p.1 == c) = false := by simpa using hp
      rw [h2, h4]
      apply ih
      rw [List.any_cons, h4] at hany
      simpa using hany

theorem find?_append_nokey {r : OMap} {c v : Str}
    (hany : r.any (fun p => p.1 == c) = false) :
    (r ++ [(c, v)]).find? (fun p => p.1 == c) = some (c, v) := by
  rw [List.find?_append]
  have h1 : r.find? (fun p => p.1 == c) = none := by
    apply List.find?_eq_none.mpr
    intro x hx hpx
    have h2 : r.any (fun p => p.1 == c) = true := List.any_eq_true.mpr ⟨x, hx, hpx⟩
    rw [h2] at hany
    cases hany
  rw [h1]
  have h3 : (((c, v) : Str × Str).1 == c) = true := by simp
  rw [Option.none_or, List.find?_cons, h3]

theorem dGet_dUpd_self (r : OMap) (c v : Str) : dGet (dUpd r c v) c = some v := by
  unfold dUpd dGet
  split
  · next hany => rw [find?_map_keyrep hany]; rfl
  · next hany => rw [find?_append_nokey (Bool.eq_false_iff.mpr hany)]; rfl

theorem find?_map_keyrep_ne {r : OMap} {c c' v : Str} (h : c' ≠ c) :
    (r.map (fun p => if p.1 == c then (c, v) else p)).find?
      (fun p => p.1 == c') = r.find? (fun p => p.1 == c') := by
  induction r with
  | nil => rfl
  | cons p t ih =>
    rw [List.map_cons, List.find?_cons, List.find?_cons]
    by_cases hp : (p.1 == c) = true
    · have hpc : p.1 = c := by simpa using hp
      have h2 : (if (p.1 == c) = true then (c, v) else p) = (c, v) := if_pos hp
      rw [h2]
      have h3 : (((c, v) : Str × Str).1 == c') = false := by simp [Ne.symm h]
      have h4 : (p.1 == c') = false := by simp [hpc, Ne.symm h]
      rw [h3, h4]
      exact ih
    · have h2 : (if (p.1 == c) = true then (c, v) else p) = p := if_neg hp
      rw [h2]
      cases hpc : (p.1 == c') with
      | true => rfl
      | false => exact ih

theorem dGet_dUpd_ne {r : OMap} {c c' v : Str} (h : c' ≠ c) :
    dGet (dUpd r c v) c' = dGet r c' := by
  unfold dUpd dGet
  split
  · rw [find?_map_keyrep_ne h]
  · rw [List.find?_append]
    have h2 : (([(c, v)] : OMap).find? (fun p => p.1 == c')) = none := by
      rw [List.find?_cons]
      have h3 : (((c, v) : Str × Str).1 == c') = false := by simp [Ne.symm h]
      rw [h3]
      rfl
    rw [h2]
    cases r.find? (fun p => p.1 == c') <;> rfl

theorem any_map_keyrep_ne {r : OMap} {c c' v : Str} (h : c' ≠ c) :
    (r.map (fun p => if p.1 == c then (c, v) else p)).any
      (fun p => p.1 == c') = r.any (fun p => p.1 == c') := by
  induction r with
  | nil => rfl
  | cons p t ih =>
    rw [List.map_cons, List.any_cons, List.any_cons, ih]
    by_cases hp : (p.1 == c) = true
    · have hpc : p.1 = c := by simpa using hp
      have h2 : (if (p.1 == c) = true then (c, v) else p) = (c, v) := if_pos hp
      rw [h2]
      have h3 : (((c, v) : Str × Str).1 == c') = false := by simp [Ne.symm h]
      have h4 : (p.1 == c') = false := by simp [hpc, Ne.symm h]
      rw [h3, h4]
    · have h2 : (if (p.1 == c) = true then (c, v) else p) = p := if_neg hp
      rw [h2]

theorem any_key_dUpd_ne {r : OMap} {c c' v : Str} (h : c' ≠ c) :
    (dUpd r c v).any (fun p => p.1 == c') = r.any (fun p => p.1 == c') := by
  unfold dUpd
  split
  · exact any_map_keyrep_ne h
  · rw [List.any_append]
    have h3 : ([(c, v)] : OMap).any (fun p => p.1 == c') = false := by
      simp [Ne.symm h]
    rw [h3, Bool.or_false]

theorem entries_dUpd_ne {r : OMap} {c c' v : Str} {p : Str × Str} (h : c' ≠ c)
    (hp : p ∈ dUpd r c' v) (hk : p.1 = c) : p ∈ r := by
  unfold dUpd at hp
  split at hp
  · obtain ⟨q, hq, hfq⟩ := List.mem_map.mp hp
    by_cases hqc : (q.1 == c') = true
    · rw [if_pos hqc] at hfq
      rw [← hfq] at hk
      exact absurd (show c' = c by simpa using hk) h
    · rw [if_neg hqc] at hfq
      rwa [← hfq]
  · rcases List.mem_append.mp hp with h1 | h1
    · exact h1
    · have h2 : p = (c', v) := by simpa using h1
      rw [h2] at hk
      exact absurd (show c' = c by simpa using hk) h

theorem dUpd_eq_self_of {r : OMap} {c v : Str}
    (hany : r.any (fun p => p.1 == c) = true)
    (hval : ∀ p ∈ r, p.1 = c → p.2 = v) : dUpd r c v = r := by
  unfold dUpd
  rw [if_pos hany]
  apply map_fix
  intro p hp
  by_cases hpc : (p.1 == c) = true
  · have h1 : p.1 = c := by simpa using hpc
    have h2 : p.2 = v := hval p hp h1
    rw [if_pos hpc, ← h1, ← h2]
  · rw [if_neg hpc]

theorem dUpd_vals_of_eq_self {r : OMap} {c v : Str} (h : dUpd r c v = r) :
    r.any (fun p => p.1 == c) = true ∧ ∀ p ∈ r, p.1 = c → p.2 = v := by
  unfold dUpd at h
  split at h
  · next hany =>
    refine ⟨hany, fun p hp hk => ?_⟩
    have h2 := map_eq_self_mem h p hp
    rw [if_pos (show (p.1 == c) = true by simpa using hk)] at h2
    rw [← h2]
  · exact absurd (congrArg List.length h) (by simp)

theorem any_of_dGet_some {r : OMap} {c v : Str} (h : dGet r c = some v) :
    r.any (fun p => p.1 == c) = true := by
  unfold dGet at h
  cases hf : r.find? (fun p => p.1 == c) with
  | none => rw [hf] at h; cases h
  | some q =>
    have hmem := List.mem_of_find?_eq_some hf
    have hpred := List.find?_some hf
    exact List.any_eq_true.mpr ⟨q, hmem, hpred⟩

theorem vals_dUpd_self {r : OMap} {c v : Str} {p : Str × Str}
    (hp : p ∈ dUpd r c v) (hk : p.1 = c) : p.2 = v := by
  unfold dUpd at hp
  split at hp
  · next hany =>
    obtain ⟨q, hq, hfq⟩ := List.mem_map.mp hp
    by_cases hqc : (q.1 == c) = true
    · rw [if_pos hqc] at hfq
      rw [← hfq]
    · rw [if_neg hqc] at hfq
      rw [← hfq] at hk
      exact absurd (by simpa using hk) hqc
  · next hany =>
    rcases List.mem_append.mp hp with h1 | h1
    · exact absurd (List.any_eq_true.mpr ⟨p, h1, by simp [hk]⟩) hany
    · have h2 : p = (c, v) := by simpa using h1
      rw [h2]

theorem colStep_none {r : OMap} {c : Str} (h : dGet r c = none) :
    colStep r c = r := by
  unfold colStep
  rw [h]

theorem colStep_some {r : OMap} {c v : Str} (h : dGet r c = some v) :
    colStep r c =
      if v = [] then r
      else
        match parseDec (stripPy (removeCommas v)) with
        | some d => dUpd r c (intToDecString (ceilD d))
        | none => r := by
  unfold colStep
  rw [h]

theorem colStep_eq_or (r : OMap) (c : Str) :
    colStep r c = r ∨ ∃ w, colStep r c = dUpd r c w := by
  cases hg : dGet r c with
  | none => exact Or.inl (colStep_none hg)
  | some v =>
    by_cases hv : v = []
    · exact Or.inl (by rw [colStep_some hg, if_pos hv])
    · cases hp : parseDec (stripPy (removeCommas v)) with
      | none => exact Or.inl (by rw [colStep_some hg, if_neg hv, hp])
      | some d => exact Or.inr ⟨_, by rw [colStep_some hg, if_neg hv, hp]⟩

theorem colStep_dGet_ne {r : OMap} {c c' : Str} (h : c ≠ c') :
    dGet (colStep r c') c = dGet r c := by
  rcases colStep_eq_or r c' with he | ⟨w, he⟩
  · rw [he]
  · rw [he]
    exact dGet_dUpd_ne h

theorem colStep_idem (r : OMap) (c : Str) :
    colStep (colStep r c) c = colStep r c := by
  cases hg : dGet r c with
  | none =>
    have h1 : colStep r c = r := colStep_none hg
    rw [h1]
    exact h1
  | some v =>
    by_cases hv : v = []
    · have h1 : colStep r c = r := by rw [colStep_some hg, if_pos hv]
      rw [h1]
      exact h1
    · cases hp : parseDec (stripPy (removeCommas v)) with
      | none =>
        have h1 : colStep r c = r := by rw [colStep_some hg, if_neg hv, hp]
        rw [h1]
        exact h1
      | some d =>
        have h1 : colStep r c = dUpd r c (intToDecString (ceilD d)) := by
          rw [colStep_some hg, if_neg hv, hp]
        rw [h1]
        obtain ⟨d2, hp2, hc2⟩ := parse_intToDecString (ceilD d)
        rw [colStep_some (dGet_dUpd_self r c _),
          if_neg (intToDecString_ne_nil _), hp2]
        show dUpd (dUpd r c (intToDecString (ceilD d))) c
          (intToDecString (ceilD d2)) = dUpd r c (intToDecString (ceilD d))
        rw [hc2]
        apply dUpd_eq_self_of
        · exact any_of_dGet_some (dGet_dUpd_self r c _)
        · exact fun p hp3 hk => vals_dUpd_self hp3 hk

theorem colStep_comm_stable {r : OMap} {c c' : Str} (h : c ≠ c')
    (hs : colStep r c = r) : colStep (colStep r c') c = colStep r c' := by
  have hget : dGet (colStep r c') c = dGet r c := colStep_dGet_ne h
  cases hg : dGet r c with
  | none => exact colStep_none (hget.trans hg)
  | some v =>
    by_cases hv : v = []
    · rw [colStep_some (hget.trans hg), if_pos hv]
    · cases hp : parseDec (stripPy (removeCommas v)) with
      | none => rw [colStep_some (hget.trans hg), if_neg hv, hp]
      | some d =>
        have h1 : colStep r c = dUpd r c (intToDecString (ceilD d)) := by
          rw [colStep_some hg, if_neg hv, hp]
        rw [h1] at hs
        obtain ⟨hany, hvals⟩ := dUpd_vals_of_eq_self hs
        rw [colStep_some (hget.trans hg), if_neg hv, hp]
        apply dUpd_eq_self_of
        · rcases colStep_eq_or r c' with he | ⟨w', he⟩
          · rw [he]
            exact hany
          · rw [he, any_key_dUpd_ne h]
            exact hany
        · intro p hp2 hk
          have hpr : p ∈ r := by
            rcases colStep_eq_or r c' with he | ⟨w', he⟩
            · rwa [he] at hp2
            · rw [he] at hp2
              exact entries_dUpd_ne (Ne.symm h) hp2 hk
          exact hvals p hpr hk

theorem foldl_colStep_stable :
    ∀ (cols : List Str) (r : OMap) (c : Str),
      (c ∈ cols ∨ colStep r c = r) →
      colStep (cols.foldl colStep r) c = cols.foldl colStep r
  | [], r, c, h => by
    rcases h with h | h
    · simp at h
    · simpa using h
  | c0 :: rest, r, c, h => by
    rw [List.foldl_cons]
    apply foldl_colStep_stable rest (colStep r c0) c
    rcases h with h | h
    · rcases List.mem_cons.mp h with h1 | h1
      · subst h1
        exact Or.inr (colStep_idem r c)
      · exact Or.inl h1
    · by_cases hc : c = c0
      · subst hc
        exact Or.inr (colStep_idem r c)
      · exact Or.inr (colStep_comm_stable hc h)

theorem foldl_colStep_of_stable :
    ∀ (cols : List Str) (r : OMap),
      (∀ c ∈ cols, colStep r c = r) → cols.foldl colStep r = r
  | [], _, _ => rfl
  | c0 :: rest, r, h => by
    rw [List.foldl_cons, h c0 (by simp)]
    exact foldl_colStep_of_stable rest r (fun c hc => h c (by simp [hc]))

theorem foldl_colStep_idem (cols : List Str) (r : OMap) :
    cols.foldl colStep (cols.foldl colStep r) = cols.foldl colStep r :=
  foldl_colStep_of_stable cols _
    (fun c hc => foldl_colStep_stable cols r c (Or.inl hc))

theorem roundVal_idem (k v : Str) : roundVal k (roundVal k v) = roundVal k v := by
  by_cases hk : k ∈ COUNTING ∧ k ∉ SKIP_ROUND ∧ v ≠ []
  · cases hp : parseDec (stripPy (removeCommas v)) with
    | none =>
      have h1 : roundVal k v = v := by
        unfold roundVal
        rw [if_pos hk, hp]
      rw [h1]
      exact h1
    | some d =>
      have h1 : roundVal k v = intToDecString (ceilD d) := by
        unfold roundVal
        rw [if_pos hk, hp]
      rw [h1]
      obtain ⟨d2, hp2, hc2⟩ := parse_intToDecString (ceilD d)
      have hk2 : k ∈ COUNTING ∧ k ∉ SKIP_ROUND ∧ intToDecString (ceilD d) ≠ [] :=
        ⟨hk.1, hk.2.1, intToDecString_ne_nil _⟩
      unfold roundVal
      rw [if_pos hk2, hp2]
      show intToDecString (ceilD d2) = intToDecString (ceilD d)
      rw [hc2]
  · have h1 : roundVal k v = v := by
      unfold roundVal
      rw [if_neg hk]
    rw [h1]
    exact h1

theorem ceil_counting_idem (d : OMap) :
    ceil_counting (ceil_counting d) = ceil_counting d := by
  unfold ceil_counting
  rw [List.map_map]
  apply List.map_congr_left
  intro p _
  simp [Function.comp, roundVal_idem]

/-- C10: the counting-column ceiling transform is idempotent: applying
`ceil_counting` a second time to an already-rounded mapping changes
nothing, and re-running the CSV rounding step on its own output rows
changes nothing. -/
theorem spec_c10_round_idempotent :
    (∀ d : OMap, ceil_counting (ceil_counting d) = ceil_counting d) ∧
    (∀ (header : List Str) (rows : List OMap),
      roundCsvRows header (roundCsvRows header rows) =
        roundCsvRows header rows) := by
  refine ⟨ceil_counting_idem, ?_⟩
  intro header rows
  simp only [roundCsvRows, List.map_map]
  apply List.map_congr_left
  intro r _
  exact foldl_colStep_idem _ _

theorem parseDecCore_valid {neg : Bool} {rest : Str} {d : DecNum}
    (h : parseDecCore neg rest = some d) :
    (∀ c ∈ d.intDigits, isDig c = true) ∧
    (∀ fr, d.fracDigits = some fr → fr ≠ [] ∧ ∀ c ∈ fr, isDig c = true) := by
  simp only [parseDecCore] at h
  split at h
  · cases h
  · split at h
    · cases h
      refine ⟨fun c hc => List.mem_takeWhile_imp hc, fun fr hfr => ?_⟩
      cases hfr
    · split at h
      · split at h
        · next hcond =>
          cases h
          refine ⟨fun c hc => List.mem_takeWhile_imp hc, fun fr hfr => ?_⟩
          cases hfr
          exact ⟨hcond.1, fun c hc => by
            have h2 := hcond.2
            rw [List.all_eq_true] at h2
            exact h2 c hc⟩
        · cases h
      · cases h

theorem parseDec_valid {s : Str} {d : DecNum} (h : parseDec s = some d) :
    (∀ c ∈ d.intDigits, isDig c = true) ∧
    (∀ fr, d.fracDigits = some fr → fr ≠ [] ∧ ∀ c ∈ fr, isDig c = true) := by
  unfold parseDec at h
  split at h
  · exact parseDecCore_valid h
  · exact parseDecCore_valid h

/-- C7: for a counting field outside the exempt set with a nonempty value,
a value matching the numeric guard is replaced by the decimal string of
the smallest integer not below its numeric value, a non-matching value
passes through unchanged; values of non-counting or exempted fields, and
empty values, always pass through unchanged. -/
theorem spec_c7_ceiling_rounding (k v : Str) :
    (∀ d : DecNum, k ∈ COUNTING → k ∉ SKIP_ROUND → v ≠ [] →
      parseDec (stripPy (removeCommas v)) = some d →
      roundVal k v = intToDecString ⌈decValue d⌉) ∧
    (k ∈ COUNTING → k ∉ SKIP_ROUND → v ≠ [] →
      parseDec (stripPy (removeCommas v)) = none → roundVal k v = v) ∧
    (k ∉ COUNTING → roundVal k v = v) ∧
    (k ∈ SKIP_ROUND → roundVal k v = v) ∧
    (v = [] → roundVal k v = v) := by
  refine ⟨?_, ?_, ?_, ?_, ?_⟩
  · intro d hk hks hv hp
    have hval := parseDec_valid hp
    unfold roundVal
    rw [if_pos ⟨hk, hks, hv⟩, hp]
    show intToDecString (ceilD d) = intToDecString ⌈decValue d⌉
    rw [ceilD_eq_ceil hval.1 hval.2]
  · intro hk hks hv hp
    unfold roundVal
    rw [if_pos ⟨hk, hks, hv⟩, hp]
  · intro hk
    unfold roundVal
    rw [if_neg (fun hh => hk hh.1)]
  · intro hk
    unfold roundVal
    rw [if_neg (fun hh => hh.2.1 hk)]
  · intro hv
    unfold roundVal
    rw [if_neg (fun hh => hh.2.2 hv)]

/-- Witness for C7: the counting field `SO` with value `"4.2"` is rounded
to the ceiling, and the exempt field `IP` with `"180.2"` is unchanged. -/
theorem spec_c7_witness :
    roundVal (str "SO") (str "4.2") =
      intToDecString ⌈decValue ⟨false, str "4", some (str "2")⟩⌉ ∧
    roundVal (str "SO") (str "4.2") = str "5" ∧
    roundVal (str "IP") (str "180.2") = str "180.2" :=
  ⟨(spec_c7_ceiling_rounding (str "SO") (str "4.2")).1
      ⟨false, str "4", some (str "2")⟩ (by decide) (by decide) (by decide)
      (by decide),
   by decide,
   (spec_c7_ceiling_rounding (str "IP") (str "180.2")).2.2.1 (by decide)⟩

/-! ## Claims C3 and C5: the two alignment paths -/

theorem tagFold_snd :
    ∀ (cells : List Cell) (acc : OMap) (b : Bool),
      (cells.foldl tagStep (acc, b)).2 =
        (b || cells.any (fun td => normTag td.dataStat != []))
  | [], acc, b => by simp
  | td :: rest, acc, b => by
    rw [List.foldl_cons, List.any_cons]
    by_cases hk : normTag td.dataStat ≠ []
    · have h1 : tagStep (acc, b) td =
          (dUpd acc (kmGet (normTag td.dataStat)) (removeCommas td.text), true) := by
        unfold tagStep
        rw [if_pos hk]
      rw [h1, tagFold_snd rest _ true]
      have h2 : (normTag td.dataStat != []) = true := by simpa using hk
      rw [h2]
      simp
    · have h1 : tagStep (acc, b) td = (acc, b) := by
        unfold tagStep
        rw [if_neg hk]
      rw [h1, tagFold_snd rest acc b]
      have h2 : (normTag td.dataStat != []) = false := by simpa using hk
      rw [h2]
      simp

theorem zip_take_len {α β : Type} :
    ∀ (l1 : List α) (l2 : List β), l1.zip l2 = (l1.take l2.length).zip l2
  | [], _ => by simp
  | _ :: _, [] => by simp
  | a :: t1, b :: t2 => by
    rw [List.length_cons, List.take_succ_cons, List.zip_cons_cons,
      List.zip_cons_cons, zip_take_len t1 t2]

/-- C3: the field mapping of a matching footer row is built from per-cell
tags (ignoring the header keys) whenever at least one cell carries a
nonempty tag, and by strict positional alignment (i-th cell with i-th
header key, cells beyond the key list dropped) exactly when no cell
carries one. -/
theorem spec_c3_alignment_paths (statKeys : List Str) (cells : List Cell) :
    ((∃ td ∈ cells, normTag td.dataStat ≠ []) →
      buildRowRaw statKeys cells = (tagFold cells).1 ∧
      ∀ keys2 : List Str, buildRowRaw keys2 cells = buildRowRaw statKeys cells) ∧
    ((∀ td ∈ cells, normTag td.dataStat = []) →
      buildRowRaw statKeys cells = posPath statKeys cells ∧
      posPath statKeys cells = posPath statKeys (cells.take statKeys.length)) := by
  have hsnd : (tagFold cells).2 = cells.any (fun td => normTag td.dataStat != []) := by
    have h2 := tagFold_snd cells [] false
    simpa [tagFold] using h2
  constructor
  · intro hex
    have hany : (tagFold cells).2 = true := by
      rw [hsnd, List.any_eq_true]
      obtain ⟨td, htd, hne⟩ := hex
      exact ⟨td, htd, by simpa using hne⟩
    have hb : ∀ keys2 : List Str, buildRowRaw keys2 cells = (tagFold cells).1 := by
      intro keys2
      show (if (tagFold cells).2 then (tagFold cells).1 else posPath keys2 cells) =
        (tagFold cells).1
      rw [hany]
      rfl
    exact ⟨hb statKeys, fun keys2 => (hb keys2).trans (hb statKeys).symm⟩
  · intro hall
    have hany : (tagFold cells).2 = false := by
      rw [hsnd]
      simp only [List.any_eq_false]
      intro td htd
      simp [hall td htd]
    constructor
    · show (if (tagFold cells).2 then (tagFold cells).1 else posPath statKeys cells) =
        posPath statKeys cells
      rw [hany]
      rfl
    · unfold posPath
      rw [zip_take_len cells statKeys]

/-- Witness for C3: a row with one tagged cell takes the tag path whatever
the header keys are. -/
theorem spec_c3_witness :
    buildRowRaw [str "era"] [⟨some (str "w"), str "10"⟩] =
      (tagFold [⟨some (str "w"), str "10"⟩]).1 ∧
    buildRowRaw [] [⟨some (str "w"), str "10"⟩] =
      buildRowRaw [str "era"] [⟨some (str "w"), str "10"⟩] := by
  have h := (spec_c3_alignment_paths [str "era"]
    [⟨some (str "w"), str "10"⟩]).1 (by decide)
  exact ⟨h.1, h.2 []⟩

theorem tagFold_go :
    ∀ (cells : List Cell) (statKeys : List Str) (acc : OMap) (b : Bool),
      List.Forall₂ (fun td k => normTag td.dataStat = k ∧ k ≠ []) cells statKeys →
      (cells.foldl tagStep (acc, b)).1 =
        (cells.zip statKeys).foldl
          (fun m p => dUpd m (kmGet p.2) (removeCommas p.1.text)) acc := by
  intro cells
  induction cells with
  | nil =>
    intro keys acc b h
    rw [List.forall₂_nil_left_iff] at h
    subst h
    rfl
  | cons td rest ih =>
    intro keys acc b h
    cases h with
    | cons hrk hrest =>
      rw [List.zip_cons_cons, List.foldl_cons, List.foldl_cons]
      have h1 : tagStep (acc, b) td =
          (dUpd acc (kmGet (normTag td.dataStat)) (removeCommas td.text), true) := by
        unfold tagStep
        rw [if_pos (hrk.1.symm ▸ hrk.2)]
      rw [h1, hrk.1]
      exact ih _ _ true hrest

/-- C5: when every value cell carries a (nonempty) semantic tag and the
normalized tags coincide positionally with the header stat keys, the
tag-based path and the positional-fallback path build the same field
mapping. -/
theorem spec_c5_paths_agree (statKeys : List Str) (cells : List Cell)
    (h : List.Forall₂ (fun td k => normTag td.dataStat = k ∧ k ≠ [])
      cells statKeys) :
    (tagFold cells).1 = posPath statKeys cells ∧
    buildRowRaw statKeys cells = posPath statKeys cells := by
  have h1 : (tagFold cells).1 = posPath statKeys cells :=
    tagFold_go cells statKeys [] false h
  refine ⟨h1, ?_⟩
  show (if (tagFold cells).2 then (tagFold cells).1 else posPath statKeys cells) =
    posPath statKeys cells
  by_cases hb : (tagFold cells).2 = true
  · rw [hb]
    exact h1
  · rw [Bool.eq_false_iff.mpr hb]
    rfl

/-- Witness for C5 on a concrete two-cell row whose tags match the header
keys. -/
theorem spec_c5_witness :
    (tagFold [⟨some (str "w"), str "3"⟩, ⟨some (str "so"), str "100"⟩]).1 =
      posPath [str "w", str "so"]
        [⟨some (str "w"), str "3"⟩, ⟨some (str "so"), str "100"⟩] ∧
    buildRowRaw [str "w", str "so"]
        [⟨some (str "w"), str "3"⟩, ⟨some (str "so"), str "100"⟩] =
      posPath [str "w", str "so"]
        [⟨some (str "w"), str "3"⟩, ⟨some (str "so"), str "100"⟩] :=
  spec_c5_paths_agree _ _
    (List.Forall₂.cons (by refine ⟨?_, ?_⟩ <;> decide)
      (List.Forall₂.cons (by refine ⟨?_, ?_⟩ <;> decide) List.Forall₂.nil))

/-! ## Claim C2: the label matcher -/

theorem cons_pre_cons {a b : Char} {l₁ l₂ : Str} :
    (a :: l₁ <+: b :: l₂) ↔ a = b ∧ l₁ <+: l₂ := by
  constructor
  · rintro ⟨t, ht⟩
    rw [List.cons_append, List.cons.injEq] at ht
    exact ⟨ht.1, ⟨t, ht.2⟩⟩
  · rintro ⟨rfl, t, ht⟩
    exact ⟨t, by rw [List.cons_append, ht]⟩

theorem hasPre_iff : ∀ (n h : Str), hasPre n h = true ↔ n <+: h
  | [], h => by simp [hasPre]
  | a :: as, [] => by
    constructor
    · intro h
      simp [hasPre] at h
    · rintro ⟨t, ht⟩
      simp at ht
  | a :: as, b :: bs => by
    rw [cons_pre_cons]
    show (a == b && hasPre as bs) = true ↔ _
    rw [Bool.and_eq_true, hasPre_iff as bs]
    simp

theorem containsSub_iff : ∀ (n h : Str), containsSub n h = true ↔ n <:+: h
  | n, [] => by
    rw [List.infix_nil]
    show hasPre n [] = true ↔ _
    rw [hasPre_iff]
    constructor
    · rintro ⟨t, ht⟩
      exact (List.append_eq_nil.mp ht).1
    · rintro rfl
      exact ⟨[], rfl⟩
  | n, c :: t => by
    show (hasPre n (c :: t) || containsSub n t) = true ↔ _
    rw [List.infix_cons_iff, Bool.or_eq_true, hasPre_iff, containsSub_iff n t]

theorem matches162_iff (lab : Str) :
    matches162 lab = true ↔
      ((str "162") <:+: nlabel lab ∧ (str "avg") <:+: nlabel lab) := by
  unfold matches162
  rw [Bool.and_eq_true, containsSub_iff, containsSub_iff]

/-- C2 counterexample: the label `"Per 162 Game Average"` (an example the
claim asserts to match) is rejected by the matcher — its normalization
contains no `"avg"` substring — and its footer row yields no candidate. -/
theorem spec_c2_counterexample :
    matches162 (str "Per 162 Game Average") = false ∧
    (rowCandidate (str "pitching_standard") []
      ⟨some (str "Per 162 Game Average"), []⟩).isSome = false := by
  decide

/-- C2 (amended): a footer row is selected as a career-average candidate
iff its normalized label contains both `"162"` and `"avg"`; labels
normalizing from `"162 Game Avg"` and `"162-Game Avg."` match, while
`"Per 162 Game Average"`, `"Career Totals"` and `"Season Avg"` do not. -/
theorem spec_c2_label_match (tid : Str) (statKeys : List Str) (tr : FRow) :
    ((rowCandidate tid statKeys tr).isSome = true ↔
      ((str "162") <:+: nlabel (tr.th.getD []) ∧
        (str "avg") <:+: nlabel (tr.th.getD []))) ∧
    matches162 (str "162 Game Avg") = true ∧
    matches162 (str "162-Game Avg.") = true ∧
    matches162 (str "Per 162 Game Average") = false ∧
    matches162 (str "Career Totals") = false ∧
    matches162 (str "Season Avg") = false := by
  refine ⟨?_, by decide, by decide, by decide, by decide, by decide⟩
  have hiso : (rowCandidate tid statKeys tr).isSome =
      matches162 (tr.th.getD []) := by
    unfold rowCandidate
    by_cases hm : matches162 (tr.th.getD []) = true
    · rw [if_pos hm, hm]
      rfl
    · rw [if_neg hm, Bool.eq_false_iff.mpr hm]
      rfl
  rw [hiso]
  exact matches162_iff _

/-! ## Claim C4: candidate ranking -/

theorem mem_foldl_append {α β : Type} (f : β → List α) :
    ∀ (l : List β) (acc : List α) (x : α),
      x ∈ l.foldl (fun a b => a ++ f b) acc ↔ x ∈ acc ∨ ∃ b ∈ l, x ∈ f b
  | [], acc, x => by simp
  | b0 :: t, acc, x => by
    rw [List.foldl_cons, mem_foldl_append f t (acc ++ f b0) x]
    simp only [List.mem_append, List.mem_cons]
    constructor
    · rintro (⟨h | h⟩ | ⟨b, hb, hx⟩)
      · exact Or.inl h
      · exact Or.inr ⟨b0, Or.inl rfl, h⟩
      · exact Or.inr ⟨b, Or.inr hb, hx⟩
    · rintro (h | ⟨b, hb | hb, hx⟩)
      · exact Or.inl (Or.inl h)
      · exact Or.inl (Or.inr (hb ▸ hx))
      · exact Or.inr ⟨b, hb, hx⟩

theorem rowCandidate_rank {tid : Str} {statKeys : List Str} {tr : FRow}
    {c : Nat × OMap} (h : rowCandidate tid statKeys tr = some c) :
    c.1 = 0 ∨ c.1 = 1 := by
  unfold rowCandidate at h
  split at h
  · cases h
    by_cases ht : tid = str "pitching_standard"
    · rw [if_pos ht]
      exact Or.inl rfl
    · rw [if_neg ht]
      exact Or.inr rfl
  · cases h

theorem rowCandidate_rank_iff {tid : Str} {statKeys : List Str} {tr : FRow}
    {c : Nat × OMap} (h : rowCandidate tid statKeys tr = some c) :
    (c.1 = 0 ↔ tid = str "pitching_standard") := by
  unfold rowCandidate at h
  split at h
  · cases h
    by_cases ht : tid = str "pitching_standard"
    · rw [if_pos ht]
      simp [ht]
    · rw [if_neg ht]
      simp [ht]
  · cases h

theorem tableCandidates_rank {tbl : Table} {c : Nat × OMap}
    (h : c ∈ tableCandidates tbl) : c.1 = 0 ∨ c.1 = 1 := by
  simp only [tableCandidates] at h
  by_cases hid : containsSub (str "pitch") (pyLower (tbl.id.getD [])) = true
  · rw [if_pos hid] at h
    cases hft : tbl.tfoot with
    | none => rw [hft] at h; cases h
    | some frows =>
      rw [hft] at h
      rw [mem_foldl_append] at h
      rcases h with h | ⟨tr, _, hx⟩
      · cases h
      · cases hr : rowCandidate (pyLower (tbl.id.getD []))
          (build_header_stat_keys tbl) tr with
        | none => rw [hr] at hx; cases hx
        | some c2 =>
          rw [hr] at hx
          have hc : c = c2 := by simpa using hx
          exact hc ▸ rowCandidate_rank hr
  · rw [if_neg hid] at h
    cases h

theorem collectCandidates_rank {tables : List Table} {c : Nat × OMap}
    (h : c ∈ collectCandidates tables) : c.1 = 0 ∨ c.1 = 1 := by
  unfold collectCandidates at h
  rw [mem_foldl_append] at h
  rcases h with h | ⟨tbl, _, hx⟩
  · cases h
  · exact tableCandidates_rank hx

theorem insertionSort_head_rank :
    ∀ (l : List (Nat × OMap)), (∀ x ∈ l, x.1 = 0 ∨ x.1 = 1) →
      (l.insertionSort (fun a b => a.1 ≤ b.1)).head? =
        ((l.find? (fun c => c.1 == 0)).or l.head?) := by
  intro l
  induction l with
  | nil => intro _; rfl
  | cons x xs ih =>
    intro h
    have hxs := fun y hy => h y (List.mem_cons_of_mem x hy)
    have ihx := ih hxs
    show (List.orderedInsert _ x (xs.insertionSort _)).head? = _
    rcases h x (by simp) with hx0 | hx1
    · have hpx : (x.1 == 0) = true := by simp [hx0]
      have hfind : (x :: xs).find? (fun c => c.1 == 0) = some x := by
        rw [List.find?_cons, hpx]
      rw [hfind]
      cases hs : xs.insertionSort (fun a b => a.1 ≤ b.1) with
      | nil => rfl
      | cons b s' =>
        have hr : x.1 ≤ b.1 := by rw [hx0]; exact Nat.zero_le _
        have hoi : List.orderedInsert (fun a b => a.1 ≤ b.1) x (b :: s') =
            x :: b :: s' := by
          show (if x.1 ≤ b.1 then x :: b :: s' else
            b :: List.orderedInsert (fun a b => a.1 ≤ b.1) x s') = _
          rw [if_pos hr]
        rw [hoi]
        rfl
    · have hpx : (x.1 == 0) = false := by simp [hx1]
      have hfind : (x :: xs).find? (fun c => c.1 == 0) =
          xs.find? (fun c => c.1 == 0) := by
        rw [List.find?_cons, hpx]
      rw [hfind]
      cases hf : xs.find? (fun c => c.1 == 0) with
      | some z =>
        have hz0 : z.1 = 0 := by simpa using List.find?_some hf
        rw [hf] at ihx
        have ihz : (xs.insertionSort (fun a b => a.1 ≤ b.1)).head? = some z := by
          simpa [Option.or] using ihx
        cases hs : xs.insertionSort (fun a b => a.1 ≤ b.1) with
        | nil => rw [hs] at ihz; cases ihz
        | cons b s' =>
          rw [hs] at ihz
          have hb : b = z := by simpa using ihz
          subst hb
          have hnr : ¬ (x.1 ≤ b.1) := by rw [hx1, hz0]; omega
          have hoi : List.orderedInsert (fun a b => a.1 ≤ b.1) x (b :: s') =
              b :: List.orderedInsert (fun a b => a.1 ≤ b.1) x s' := by
            show (if x.1 ≤ b.1 then x :: b :: s' else
              b :: List.orderedInsert (fun a b => a.1 ≤ b.1) x s') = _
            rw [if_neg hnr]
          rw [hoi]
          rfl
      | none =>
        cases hs : xs.insertionSort (fun a b => a.1 ≤ b.1) with
        | nil => rfl
        | cons b s' =>
          have hbmem : b ∈ xs :=
            (List.perm_insertionSort (fun a b => a.1 ≤ b.1) xs).mem_iff.mp
              (by rw [hs]; simp)
          have hb1 : b.1 = 1 := by
            rcases hxs b hbmem with h0 | h1
            · exfalso
              have h2 := List.find?_eq_none.mp hf b hbmem
              simp [h0] at h2
            · exact h1
          have hr : x.1 ≤ b.1 := by rw [hx1, hb1]
          have hoi : List.orderedInsert (fun a b => a.1 ≤ b.1) x (b :: s') =
              x :: b :: s' := by
            show (if x.1 ≤ b.1 then x :: b :: s' else
              b :: List.orderedInsert (fun a b => a.1 ≤ b.1) x s') = _
            rw [if_pos hr]
          rw [hoi]
          rfl

/-- C4: among the collected candidates (in document order), the locator
returns the mapping of the first rank-0 candidate when one exists (rank 0
marks exactly the canonical `pitching_standard` table id), the first
candidate in document order when all candidates are non-canonical, and
absence when there is no candidate. -/
theorem spec_c4_ranking (tables : List Table) :
    (collectCandidates tables = [] → find_pitching_162_row tables = none) ∧
    (∀ c, (collectCandidates tables).find? (fun c => c.1 == 0) = some c →
      find_pitching_162_row tables = some c.2) ∧
    (∀ c cs, collectCandidates tables = c :: cs →
      (collectCandidates tables).find? (fun c => c.1 == 0) = none →
      find_pitching_162_row tables = some c.2) ∧
    (∀ (tid : Str) (statKeys : List Str) (tr : FRow) (c : Nat × OMap),
      rowCandidate tid statKeys tr = some c →
      (c.1 = 0 ↔ tid = str "pitching_standard")) := by
  have hh := insertionSort_head_rank (collectCandidates tables)
    (fun x hx => collectCandidates_rank hx)
  refine ⟨?_, ?_, ?_, fun tid ks tr c h => rowCandidate_rank_iff h⟩
  · intro h0
    unfold find_pitching_162_row
    rw [h0]
    rfl
  · intro c hf
    rw [hf] at hh
    unfold find_pitching_162_row
    cases hs : (collectCandidates tables).insertionSort (fun a b => a.1 ≤ b.1) with
    | nil => rw [hs] at hh; cases hh
    | cons b s' =>
      rw [hs] at hh
      have hb : b = c := by simpa [Option.or] using hh
      rw [hb]
  · intro c cs hcc hf
    rw [hf, Option.none_or, hcc] at hh
    unfold find_pitching_162_row
    rw [hcc]
    cases hs : (c :: cs).insertionSort (fun a b => a.1 ≤ b.1) with
    | nil => rw [hs] at hh; cases hh
    | cons b s' =>
      rw [hs] at hh
      have hb : b = c := by simpa using hh
      rw [hb]

/-- Witness for C4: with a non-canonical pitching table first in document
order and the canonical `pitching_standard` table second, the locator
returns the canonical table's row. -/
theorem spec_c4_witness :
    find_pitching_162_row
      [⟨some (str "pitching_extra"),
        some [[⟨some (str "w"), str "W"⟩]],
        some [⟨some (str "162 Game Avg"), [⟨some (str "w"), str "2.1"⟩]⟩]⟩,
       ⟨some (str "pitching_standard"),
        some [[⟨some (str "w"), str "W"⟩]],
        some [⟨some (str "162 Game Avg"), [⟨some (str "w"), str "3.5"⟩]⟩]⟩] =
      some [(str "W", str "3.5")] :=
  (spec_c4_ranking _).2.1 (0, [(str "W", str "3.5")]) (by decide)

/-! ## Claim C8: the nickname extractor -/

theorem parse_nickname_skip {p : Para} {ps : List Para}
    (h : ∀ st : Str × Str, p.strong = some st →
      st.1 ≠ str "Nickname:" ∧ st.1 ≠ str "Nicknames:") :
    parse_nickname (p :: ps) = parse_nickname ps := by
  show (match p.strong with
    | none => parse_nickname ps
    | some st =>
      if st.1 = str "Nickname:" ∨ st.1 = str "Nicknames:" then
        let raw := truncAtSep (stripNickLabel p.fullText)
        if stripPy raw = [] then str "N/A" else stripPy raw
      else parse_nickname ps) = parse_nickname ps
  cases hs : p.strong with
  | none => rfl
  | some st =>
    have h2 := h st hs
    show (if st.1 = str "Nickname:" ∨ st.1 = str "Nicknames:" then _ else _) = _
    rw [if_neg (by rintro (h3 | h3) <;> [exact h2.1 h3; exact h2.2 h3])]

theorem parse_nickname_hit {p : Para} {ps : List Para} {st : Str × Str}
    (hs : p.strong = some st)
    (h : st.1 = str "Nickname:" ∨ st.1 = str "Nicknames:") :
    parse_nickname (p :: ps) =
      (if stripPy (truncAtSep (stripNickLabel p.fullText)) = [] then str "N/A"
       else stripPy (truncAtSep (stripNickLabel p.fullText))) := by
  show (match p.strong with
    | none => parse_nickname ps
    | some st =>
      if st.1 = str "Nickname:" ∨ st.1 = str "Nicknames:" then
        let raw := truncAtSep (stripNickLabel p.fullText)
        if stripPy raw = [] then str "N/A" else stripPy raw
      else parse_nickname ps) = _
  rw [hs]
  show (if st.1 = str "Nickname:" ∨ st.1 = str "Nicknames:" then _ else _) = _
  rw [if_pos h]

/-- C8 counterexample, refuting two clauses of the claim.  (a) A paragraph
labelled `"NICKNAME:"` — equal to `"Nickname:"` under case-insensitive
comparison — is not selected: the extractor returns the sentinel instead
of the nickname, because the source compares the label by exact
(case-sensitive) string equality.  (b) On `"Big Papi / The Natural, Jr"`
the positionally-first separator occurrence is `" / "` (index 8, before
the comma at index 22), so the claim's "first occurrence of any of the
separator tokens" reading yields `"Big Papi"`; the code instead walks the
separator LIST in order and truncates at the first listed separator that
occurs anywhere (here the comma), returning `"Big Papi / The Natural"`. -/
theorem spec_c8_counterexample :
    (parse_nickname [⟨some (str "NICKNAME:", str "NICKNAME:"),
      str "NICKNAME: Big Papi, The Natural"⟩] = str "N/A" ∧
     str "N/A" ≠ str "Big Papi") ∧
    (parse_nickname [⟨some (str "Nickname:", str "Nickname:"),
      str "Nickname: Big Papi / The Natural, Jr"⟩] =
        str "Big Papi / The Natural" ∧
     str "Big Papi / The Natural" ≠ str "Big Papi") := by
  refine ⟨⟨by decide, by decide⟩, by decide, by decide⟩

/-- C8 (amended): the extractor selects the first paragraph whose leading
emphasized label text equals `"Nickname:"` or `"Nicknames:"` compared
case-SENSITIVELY (exact equality); for it, the label prefix is stripped
and the text truncated at the first separator IN LIST ORDER (bullet,
semicolon, comma, `" / "`, `" | "`) that occurs anywhere in it — not at
the positionally earliest occurrence; the sentinel `"N/A"` is returned
when no such paragraph exists or the remaining text is empty. -/
theorem spec_c8_nickname (ps : List Para) :
    ((∀ p ∈ ps, ∀ st : Str × Str, p.strong = some st →
        st.1 ≠ str "Nickname:" ∧ st.1 ≠ str "Nicknames:") →
      parse_nickname ps = str "N/A") ∧
    (∀ (p : Para) (ps2 : List Para),
      (∀ q ∈ ps, ∀ st : Str × Str, q.strong = some st →
        st.1 ≠ str "Nickname:" ∧ st.1 ≠ str "Nicknames:") →
      ∀ st : Str × Str, p.strong = some st →
      (st.1 = str "Nickname:" ∨ st.1 = str "Nicknames:") →
      parse_nickname (ps ++ p :: ps2) =
        (if stripPy (truncAtSep (stripNickLabel p.fullText)) = [] then str "N/A"
         else stripPy (truncAtSep (stripNickLabel p.fullText)))) ∧
    parse_nickname [⟨some (str "Nickname:", str "Nickname:"),
      str "Nickname: Big Papi, The Natural"⟩] = str "Big Papi" := by
  refine ⟨?_, ?_, by decide⟩
  · induction ps with
    | nil => intro _; rfl
    | cons q t ih =>
      intro h
      rw [parse_nickname_skip (h q (by simp))]
      exact ih (fun q2 hq2 => h q2 (by simp [hq2]))
  · induction ps with
    | nil =>
      intro p ps2 _ st hs h
      rw [List.nil_append]
      exact parse_nickname_hit hs h
    | cons q t ih =>
      intro p ps2 hq st hs h
      rw [List.cons_append, parse_nickname_skip (hq q (by simp))]
      exact ih p ps2 (fun q2 hq2 => hq q2 (by simp [hq2])) st hs h

/-- Witness for C8 on a one-paragraph region with an exactly-matching
label. -/
theorem spec_c8_witness :
    parse_nickname ([] ++ (⟨some (str "Nickname:", str "Nickname:"),
        str "Nickname: Big Papi, The Natural"⟩ : Para) :: []) =
      (if stripPy (truncAtSep (stripNickLabel
          (str "Nickname: Big Papi, The Natural"))) = [] then str "N/A"
       else stripPy (truncAtSep (stripNickLabel
          (str "Nickname: Big Papi, The Natural")))) :=
  (spec_c8_nickname []).2.1
    ⟨some (str "Nickname:", str "Nickname:"),
      str "Nickname: Big Papi, The Natural"⟩ []
    (by simp) (str "Nickname:", str "Nickname:") rfl (Or.inl rfl)

/-! ## Claim C6: error handling in the orchestrator -/

theorem mem_dUpd {r : OMap} {k v : Str} {p : Str × Str} (h : p ∈ dUpd r k v) :
    p ∈ r ∨ p.1 = k := by
  unfold dUpd at h
  split at h
  · obtain ⟨q, hq, hfq⟩ := List.mem_map.mp h
    by_cases hqc : (q.1 == k) = true
    · rw [if_pos hqc] at hfq
      rw [← hfq]
      exact Or.inr rfl
    · rw [if_neg hqc] at hfq
      exact Or.inl (hfq ▸ hq)
  · rcases List.mem_append.mp h with h1 | h1
    · exact Or.inl h1
    · have h2 : p = (k, v) := by simpa using h1
      exact Or.inr (by rw [h2])

theorem dGet_eq_none_of {r : OMap} {k : Str} (h : ∀ p ∈ r, p.1 ≠ k) :
    dGet r k = none := by
  unfold dGet
  rw [List.find?_eq_none.mpr (fun p hp => by simp [h p hp])]
  rfl

theorem initRec_keys {url : Str} {p : Str × Str} (h : p ∈ initRec url) :
    p.1 ∈ BASE_HEADER := by
  simp only [initRec, List.mem_cons, List.not_mem_nil, or_false] at h
  rcases h with rfl | rfl | rfl | rfl | rfl | rfl | rfl | rfl | rfl | rfl | rfl | rfl <;>
    first
      | decide
      | exact show str "BaseballReferenceURL" ∈ BASE_HEADER by decide

theorem processUrl_none {fetch : Str → Option Page} {url : Str}
    (h : fetch url = none) :
    processUrl fetch url = dUpd (initRec url) (str "error") (str "fetch_failed") := by
  unfold processUrl
  rw [h]

/-- C6: a failed fetch tags the record `fetch_failed` and leaves every
non-fixed (statistic) column absent; a page without a matching
career-average row — the search returning nothing, or returning an empty
final mapping, both falsy under Python's `if row:` — tags the record
`162_row_not_found`; every subject yields exactly one record, and every
record renders as one full CSV line of exactly the header's width in the
raw file and in the derived rounded file — no subject aborts the run. -/
theorem spec_c6_error_handling (fetch : Str → Option Page) (urls : List Str)
    (url : Str) :
    (fetch url = none →
      dGet (processUrl fetch url) (str "error") = some (str "fetch_failed") ∧
      ∀ k : Str, k ∉ BASE_HEADER → dGet (processUrl fetch url) k = none) ∧
    (∀ pg : Page, fetch url = some pg →
      (find_pitching_162_row pg.tables = none ∨
        find_pitching_162_row pg.tables = some []) →
      dGet (processUrl fetch url) (str "error") =
        some (str "162_row_not_found")) ∧
    (mainRows fetch urls).length = urls.length ∧
    (∀ (header : List Str) (r : OMap),
      (csvRow header r).length = header.length) ∧
    (∀ (header : List Str) (lines : List (List Str)),
      (round_counting_columns_in_csv header lines).length = lines.length ∧
      ∀ line ∈ round_counting_columns_in_csv header lines,
        line.length = header.length) := by
  refine ⟨?_, ?_, ?_, ?_, ?_⟩
  · intro hf
    rw [processUrl_none hf]
    refine ⟨dGet_dUpd_self _ _ _, ?_⟩
    intro k hk
    apply dGet_eq_none_of
    intro p hp
    rcases mem_dUpd hp with h1 | h1
    · intro he
      exact hk (he ▸ initRec_keys h1)
    · intro he
      apply hk
      rw [← he, h1]
      decide
  · intro pg hpg hrow
    rcases hrow with hrow | hrow
    · simp only [processUrl, hpg, hrow]
      exact dGet_dUpd_self _ _ _
    · simp only [processUrl, hpg, hrow, if_true]
      exact dGet_dUpd_self _ _ _
  · simp [mainRows]
  · intro header r
    simp [csvRow]
  · intro header lines
    constructor
    · simp [round_counting_columns_in_csv, roundCsvRows]
    · intro line hline
      simp only [round_counting_columns_in_csv] at hline
      obtain ⟨r, _, rfl⟩ := List.mem_map.mp hline
      simp [csvRow]

/-- A page whose canonical pitching table has a matching career-average
footer row, but all of its cell values are empty: every key is pruned,
the final mapping is empty (falsy under Python's `if row:`). -/
def c6Page : Page :=
  ⟨none, none,
   [⟨some (str "pitching_standard"),
     some [[⟨some (str "w"), str "W"⟩]],
     some [⟨some (str "162 Game Avg"), [⟨some (str "w"), str ""⟩]⟩]⟩]⟩

/-- Witness for C6: a fetch that always fails yields the `fetch_failed`
tag and an absent statistic column; a page whose career-average row
prunes to an empty mapping yields the `162_row_not_found` tag. -/
theorem spec_c6_witness :
    (dGet (processUrl (fun _ => none) (str "u")) (str "error") =
      some (str "fetch_failed") ∧
    dGet (processUrl (fun _ => none) (str "u")) (str "SO") = none) ∧
    dGet (processUrl (fun _ => some c6Page) (str "u")) (str "error") =
      some (str "162_row_not_found") :=
  ⟨⟨((spec_c6_error_handling (fun _ => none) [] (str "u")).1 rfl).1,
    ((spec_c6_error_handling (fun _ => none) [] (str "u")).1 rfl).2 (str "SO")
      (by decide)⟩,
   (spec_c6_error_handling (fun _ => some c6Page) [] (str "u")).2.1 c6Page rfl
     (Or.inr (by decide))⟩

/-! ## Claim C1: what the raw CSV actually receives -/

/-- A page whose canonical pitching table's career-average row holds the
fractional counting value `W = "11.5"`. -/
def c1Page : Page :=
  ⟨none, none,
   [⟨some (str "pitching_standard"),
     some [[⟨some (str "w"), str "W"⟩]],
     some [⟨some (str "162 Game Avg"), [⟨some (str "w"), str "11.5"⟩]⟩]⟩]⟩

/-- C1 (code bug): `main` merges `ceil_counting(row)` — not `row` — into
the record that `write_csv` then writes to `pitchers_162_raw.csv`, so the
raw file receives the ceiling-rounded counting values.  For a
career-average row extracted as `W = "11.5"`, the record and the raw CSV
line hold `"12"`, and the "raw" file is identical to the derived
"rounded" file. -/
theorem spec_c1_raw_gets_rounded :
    find_pitching_162_row c1Page.tables = some [(str "W", str "11.5")] ∧
    dGet (processUrl (fun _ => some c1Page) (str "u")) (str "W") =
      some (str "12") ∧
    rawCsvLines (fun _ => some c1Page) [str "u"] =
      roundedCsvLines (fun _ => some c1Page) [str "u"] := by
  refine ⟨by decide, by decide, by decide⟩
